import Mathlib

/-!
# Sprout: block history, diff merging and session authorization

A shallow embedding of

* `persistence/contract/prover.go`: `Prover.Merge`, `BlockProver.Merge`,
  `processProverLogs`, the loop of `watchProver`, the block target and the topic filter
  of `ListAndWatchProver`;
* `persistence/contract/contract.go`: the loop of `Contract.watch`,
  `Contract.addBlockProject`, the block range, the baseline and the fill of
  `Contract.list`;
* `task/dispatcher`: `handleP2PData`, from the specification and its test;
* `scheduler/contract_data.go`: `contractProver.get`, `contractProver.set`,
  `contractProject.get`, `contractProject.set`;
* `clients/sessions.go`: `CreateSession`, `VerifySessionAndProjectPermission`,
  `VerifyProjectPermissionByClientDID`.

Modelling conventions.

* `uint64` values are natural numbers; no arithmetic is done on them in the
  embedded code, the only conversion (`int(c.epoch)`) is modelled by
  `intOfUint64`.
* A Go `map[uint64]*Prover` is a partial function `Nat → Option Prover`
  (`none` = key absent).  Map equality is therefore extensional, as two Go
  maps with the same bindings are indistinguishable.  Maps and the pointers
  stored in them are taken to be non-nil and unaliased, which is what
  `get` and `set` build: every accumulator is a fresh
  `&BlockProver{Provers: map[uint64]*Prover{}}` filled with fresh `&Prover{}`.
* A `*bool` is an `Option Bool` (`none` = `nil`).
* A `container/list` list is a Lean list of its values, front first; an
  element handle records whether it is still attached to its list.
* A runtime panic is an explicit outcome that carries the state the call
  left behind.
* A Go `error` is an `Option String` (`none` = `nil`), the result of a remote call an
  `Except String`.
* A long-running loop (`for range ticker.C`) is the function that one iteration applies
  to the state of the loop; sends on a channel are recorded in that state, in order.
* Declarations that live outside the embedded files (the client manager, the project
  types, the ABI decoders, the callback forms of the log processors) are parameters or
  are taken from the specification, as their doc comments say.
-/

namespace Sprout

/-! ## persistence/contract/prover.go -/

/-- The 20 bytes of a `common.Address`. -/
abbrev Address := List Nat

/-- The zero value `common.Address{}`: twenty zero bytes. -/
def emptyAddress : Address := List.replicate 20 0

/-- The struct `Prover`. -/
structure Prover where
  ID : Nat
  OperatorAddress : Address
  BlockNumber : Nat
  Paused : Option Bool
  NodeTypes : Nat
deriving DecidableEq, Repr

/-- The zero value `&Prover{}`. -/
def Prover.zero : Prover :=
  { ID := 0, OperatorAddress := emptyAddress, BlockNumber := 0, Paused := none, NodeTypes := 0 }

/-- The method `func (p *Prover) Merge(diff *Prover)`: five guarded assignments in
source order; the result is the receiver after the call. -/
def Prover.Merge (p diff : Prover) : Prover :=
  let p := if diff.ID ≠ 0 then { p with ID := diff.ID } else p
  let p := if diff.OperatorAddress ≠ emptyAddress then
      { p with OperatorAddress := diff.OperatorAddress } else p
  let p := if diff.BlockNumber ≠ 0 then { p with BlockNumber := diff.BlockNumber } else p
  let p := if diff.Paused ≠ none then { p with Paused := diff.Paused } else p
  let p := if diff.NodeTypes ≠ 0 then { p with NodeTypes := diff.NodeTypes } else p
  p

/-- The struct `BlockProver`. -/
structure BlockProver where
  BlockNumber : Nat
  Provers : Nat → Option Prover

/-- The fresh accumulator `&BlockProver{Provers: map[uint64]*Prover{}}`. -/
def BlockProver.empty : BlockProver :=
  { BlockNumber := 0, Provers := fun _ => none }

/-- First loop of `BlockProver.Merge`: every entry of the receiver whose id is also
in `diff` is merged in place with the entry of `diff`. -/
def BlockProver.mergeExisting (provers diff : Nat → Option Prover) : Nat → Option Prover :=
  fun id =>
    match provers id with
    | some p =>
      match diff id with
      | some diffP => some (p.Merge diffP)
      | none => some p
    | none => none

/-- Second loop of `BlockProver.Merge`: every entry of `diff` whose id is not in the
receiver is inserted as `np := &Prover{}; np.Merge(p)`. -/
def BlockProver.insertMissing (provers diff : Nat → Option Prover) : Nat → Option Prover :=
  fun id =>
    match diff id with
    | some p =>
      match provers id with
      | some q => some q
      | none => some (Prover.zero.Merge p)
    | none => provers id

/-- The method `func (ps *BlockProver) Merge(diff *BlockProver)`; the result is the
receiver after the call. -/
def BlockProver.Merge (ps diff : BlockProver) : BlockProver :=
  let blockNumber := diff.BlockNumber
  let provers := BlockProver.mergeExisting ps.Provers diff.Provers
  let provers := BlockProver.insertMissing provers diff.Provers
  { BlockNumber := blockNumber, Provers := provers }

/-- Ids bound in a prover map. -/
def keys (m : Nat → Option Prover) : Set Nat := { id | (m id).isSome = true }

/-! ## scheduler/contract_data.go -/

/-- The struct `contractProver` without its mutex: `blocks` lists the values of the
`container/list` list from front to back. -/
structure contractProver where
  epoch : Nat
  blocks : List BlockProver

/-- The loop of `contractProver.get`: walks the list from the front, stops at the
first entry whose `BlockNumber` exceeds `expectedBlockNumber`, merges every entry
before it into `np`. -/
def contractProver.getLoop (expectedBlockNumber : Nat) :
    List BlockProver → BlockProver → BlockProver
  | [], np => np
  | ep :: rest, np =>
    if expectedBlockNumber < ep.BlockNumber then np
    else contractProver.getLoop expectedBlockNumber rest (np.Merge ep)

/-- The method `func (c *contractProver) get(expectedBlockNumber uint64)`. -/
def contractProver.get (c : contractProver) (expectedBlockNumber : Nat) : BlockProver :=
  contractProver.getLoop expectedBlockNumber c.blocks BlockProver.empty

/-! ### container/list

The part of the standard library's doubly linked list that `set` uses.  An
element that has been removed has `e.list == nil`; `Element.Next` then returns
`nil`, and `List.Remove` dereferences its argument (`e.list == l`), so a `nil`
argument is a runtime panic. -/

/-- A handle `*list.Element`: its value, its position in the list it was taken from,
and whether it is still attached (`e.list != nil`). -/
structure Element (α : Type) where
  Value : α
  pos : Nat
  attached : Bool

/-- The method `(*List).Front`: the first element, or `nil` (`none`) for an empty list. -/
def listFront {α : Type} (l : List α) : Option (Element α) :=
  match l with
  | [] => none
  | v :: _ => some { Value := v, pos := 0, attached := true }

/-- The method `(*Element).Next`: `nil` when the element is detached (`e.list == nil`)
or is the last one, else the element after it. -/
def Element.Next {α : Type} (l : List α) (e : Element α) : Option (Element α) :=
  if e.attached then
    match l.get? (e.pos + 1) with
    | some v => some { Value := v, pos := e.pos + 1, attached := true }
    | none => none
  else none

/-- The method `(*List).Remove` on a non-nil element: unlinks it when it is attached
to the list and clears `e.list`; a detached element leaves the list as it is. -/
def listRemove {α : Type} (l : List α) (e : Element α) : List α × Element α :=
  if e.attached then (l.eraseIdx e.pos, { e with attached := false }) else (l, e)

/-- How a call ends: it returns, or it panics; either way with the state it left. -/
inductive Outcome (σ : Type) where
  | returned (s : σ)
  | panicked (s : σ)

/-- The state a call left behind. -/
def Outcome.state {σ : Type} : Outcome σ → σ
  | .returned s => s
  | .panicked s => s

/-- Whether the call returned normally. -/
def Outcome.isReturned {σ : Type} : Outcome σ → Bool
  | .returned _ => true
  | .panicked _ => false

/-- The conversion `int(x)` of a `uint64` on a 64-bit platform (two's complement). -/
def intOfUint64 (x : Nat) : Int :=
  if x % 2 ^ 64 < 2 ^ 63 then ((x % 2 ^ 64 : Nat) : Int) else ((x % 2 ^ 64 : Nat) : Int) - 2 ^ 64

/-- The method `func (c *contractProver) set(diff *contract.BlockProver)`, statement by
statement.  The three `panicked` branches are the nil dereferences `h.Value`,
`h.Next().Value` and `c.blocks.Remove(nil)`. -/
def contractProver.set (c : contractProver) (diff : BlockProver) : Outcome contractProver :=
  -- c.blocks.PushBack(diff)
  let blocks := c.blocks ++ [diff]
  -- if c.blocks.Len() > int(c.epoch)
  if (blocks.length : Int) > intOfUint64 c.epoch then
    -- h := c.blocks.Front()
    match listFront blocks with
    | none => .panicked { c with blocks := blocks }
    | some h =>
      -- np := &contract.BlockProver{...}; np.Merge(h.Value)
      let np := BlockProver.empty
      let np := np.Merge h.Value
      -- np.Merge(h.Next().Value)
      match h.Next blocks with
      | none => .panicked { c with blocks := blocks }
      | some h2 =>
        let np := np.Merge h2.Value
        -- c.blocks.Remove(h)
        let (blocks, h) := listRemove blocks h
        -- c.blocks.Remove(h.Next())
        match h.Next blocks with
        | none => .panicked { c with blocks := blocks }
        | some e =>
          let (blocks, _) := listRemove blocks e
          -- c.blocks.PushFront(np)
          .returned { c with blocks := np :: blocks }
  else .returned { c with blocks := blocks }

/-- The struct `contractProject` without its mutex.  `contract.BlockProject` and its
`Merge` are declared outside the embedded files, so the diff type is a parameter. -/
structure contractProject (BlockProject : Type) where
  epoch : Nat
  blocks : List BlockProject

/-- The method `func (c *contractProject) set(diff *contract.BlockProject)`, statement
by statement, over a diff type with its `Merge` and its fresh accumulator
`&contract.BlockProject{Projects: map[uint64]*contract.Project{}}`. -/
def contractProject.set {BlockProject : Type} (Merge : BlockProject → BlockProject → BlockProject)
    (fresh : BlockProject) (c : contractProject BlockProject) (diff : BlockProject) :
    Outcome (contractProject BlockProject) :=
  let blocks := c.blocks ++ [diff]
  if (blocks.length : Int) > intOfUint64 c.epoch then
    match listFront blocks with
    | none => .panicked { c with blocks := blocks }
    | some h =>
      let np := fresh
      let np := Merge np h.Value
      match h.Next blocks with
      | none => .panicked { c with blocks := blocks }
      | some h2 =>
        let np := Merge np h2.Value
        let (blocks, h) := listRemove blocks h
        match h.Next blocks with
        | none => .panicked { c with blocks := blocks }
        | some e =>
          let (blocks, _) := listRemove blocks e
          .returned { c with blocks := np :: blocks }
  else .returned { c with blocks := blocks }

/-- A history with no diff stored yet (`blocks: list.New()`). -/
def contractProver.new (epoch : Nat) : contractProver :=
  { epoch := epoch, blocks := [] }

/-- A sequence of `set` calls on one history, in order; the first panic ends it. -/
def contractProver.setAll (c : contractProver) : List BlockProver → Outcome contractProver
  | [] => .returned c
  | d :: ds =>
    match c.set d with
    | .returned c1 => contractProver.setAll c1 ds
    | .panicked c1 => .panicked c1

/-- A history that stores a stream of diffs without ever collapsing: plain appends. -/
def contractProver.store (c : contractProver) (ds : List BlockProver) : contractProver :=
  { c with blocks := c.blocks ++ ds }

/-- A sequence of `set` calls in which every call acts on the list the previous call
left, whether that call returned or panicked (a panic recovered by the caller). -/
def contractProver.setEach (c : contractProver) (ds : List BlockProver) : contractProver :=
  ds.foldl (fun c d => (c.set d).state) c

/-- The diff `processProverLogs` builds from one `NodeTypeUpdated(id, 1)` log at block
`b`: `&Prover{ID: id}` with `NodeTypes` set, under `BlockNumber: b`. -/
def exampleDiff (b id : Nat) : BlockProver :=
  { BlockNumber := b
    Provers := fun i =>
      if i = id then
        some { ID := id, OperatorAddress := emptyAddress, BlockNumber := 0, Paused := none,
               NodeTypes := 1 }
      else none }

/-- Diffs at blocks 10, 11, 12, 13, 14, registering provers 1 to 5. -/
def exampleStream : List BlockProver :=
  [exampleDiff 10 1, exampleDiff 11 2, exampleDiff 12 3, exampleDiff 13 4, exampleDiff 14 5]

/-! ## clients/sessions.go -/

/-- Modelled from the spec: the struct `Client` is declared outside the embedded
files; the spec gives `Client = {ClientDID : string, Projects : set<ProjectID>}`.
`sessions.go` reads `ClientDID` and tests key presence in `projects`. -/
structure Client where
  ClientDID : String
  projects : Finset Nat
deriving DecidableEq

/-- The package variable `sessions sync.Map`: `none` for a token that `Load` does not
find, `some none` for a token bound to the nil interface value, `some (some c)` for a
token bound to a client. -/
abbrev Sessions := String → Option (Option Client)

/-- The function `VerifySessionAndProjectPermission`: the returned pair
`(string, error)`, an error being its message and `none` being `nil`. -/
def VerifySessionAndProjectPermission (sessions : Sessions) (vctoken : String)
    (projectID : Nat) : String × Option String :=
  match sessions vctoken with
  | none => ("", some "invalid token or expired")
  | some none => ("", some "invalid token or expired")
  | some (some client) =>
    if projectID ∉ client.projects then ("", some "project permission denied")
    else (client.ClientDID, none)

/-- Modelled from the spec: the package variable `manager` and its method
`ClientByDID` are declared outside the embedded files; the spec says `CreateSession`
"binds a verified token to the in-memory client record; fails if `clientDID` unknown".
`ClientByDID(did)` returns the client record registered under `did` and whether there
is one: `none` stands for `(nil, false)`, `some c` for `(c, true)`. -/
abbrev Manager := String → Option Client

/-- Modelled from the spec: the method `(*Client).HasProjectPermission` is declared
outside the embedded files; with the spec's `Client.Projects : set<ProjectID>` it is
membership in the project set (the key-presence test `VerifySessionAndProjectPermission`
does inline). -/
def Client.HasProjectPermission (c : Client) (projectID : Nat) : Bool :=
  decide (projectID ∈ c.projects)

/-- The session map before any `sessions.Store`. -/
def Sessions.empty : Sessions := fun _ => none

/-- The method `sessions.Store(vctoken, client)` of `sync.Map`: binds the key, keeps
every other binding. -/
def Sessions.Store (sessions : Sessions) (vctoken : String) (client : Client) : Sessions :=
  fun t => if t = vctoken then some (some client) else sessions t

/-- The function `CreateSession`: the returned error (`none` is `nil`) and the session
map after the call. -/
def CreateSession (manager : Manager) (sessions : Sessions) (vctoken clientdid : String) :
    Option String × Sessions :=
  match manager clientdid with
  | none => (some ("client did not exists: " ++ clientdid), sessions)
  | some client => (none, sessions.Store vctoken client)

/-- A sequence of `CreateSession(token, clientDID)` calls, in order, each on the
session map the previous one left. -/
def CreateSessions (manager : Manager) (sessions : Sessions) :
    List (String × String) → Sessions
  | [] => sessions
  | (vctoken, clientdid) :: rest =>
    CreateSessions manager (CreateSession manager sessions vctoken clientdid).2 rest

/-- The client of the last call in the sequence that was made with token `vctoken`
and a client DID the manager knows. -/
def lastBound (manager : Manager) (calls : List (String × String)) (vctoken : String) :
    Option Client :=
  calls.reverse.findSome? (fun call => if call.1 = vctoken then manager call.2 else none)

/-- The function `VerifyProjectPermissionByClientDID`: the returned error (`none` is
`nil`). -/
def VerifyProjectPermissionByClientDID (manager : Manager) (clientID : String)
    (projectID : Nat) : Option String :=
  match manager clientID with
  | some client =>
    if client.HasProjectPermission projectID then none
    else some ("no project permission " ++ clientID ++ " " ++ toString projectID)
  | none => some ("no project permission " ++ clientID ++ " " ++ toString projectID)

/-- A manager that knows two clients: `c1` with projects `{2}`, `c2` with none. -/
def exampleManager : Manager := fun did =>
  if did = "c1" then some { ClientDID := "c1", projects := {2} }
  else if did = "c2" then some { ClientDID := "c2", projects := ∅ }
  else none

/-! ## scheduler/contract_data.go: project history -/

/-- Modelled from the spec: the struct `contract.Project` is declared outside the
embedded files; the spec gives the fields `ProjectID`, `URI`, `Hash` (32 bytes),
`Paused`, `Attributes : map<32-byte-key, bytes>` and `BlockNumber`.
`contractProject.get` reads `ID` and initialises `Attributes`. -/
structure Project where
  ID : Nat
  URI : String
  Hash : List Nat
  Paused : Bool
  Attributes : List Nat → Option (List Nat)
  BlockNumber : Nat

/-- The value `&contract.Project{Attributes: map[common.Hash][]byte{}}`: every field
zero, the attribute map empty. -/
def Project.fresh : Project :=
  { ID := 0, URI := "", Hash := List.replicate 32 0, Paused := false,
    Attributes := fun _ => none, BlockNumber := 0 }

/-- Modelled from the spec: the struct `contract.BlockProject` is declared outside the
embedded files; a `BlockDiff` is a pair `(BlockNumber, map<ID, PartialSnapshot>)`.
`contractProject.get` reads `BlockNumber` and `Projects[projectID]`. -/
structure BlockProject where
  BlockNumber : Nat
  Projects : Nat → Option Project

/-- The loop of `contractProject.get`: walks the list from the front, stops at the
first entry whose `BlockNumber` exceeds `expectedBlockNumber`, and merges the entry
of `projectID`, when the diff has one, into `np`.  `Merge` stands for the method
`(*Project).Merge`, declared outside the embedded files. -/
def contractProject.getLoop (Merge : Project → Project → Project)
    (projectID expectedBlockNumber : Nat) : List BlockProject → Project → Project
  | [], np => np
  | ep :: rest, np =>
    if expectedBlockNumber < ep.BlockNumber then np
    else
      match ep.Projects projectID with
      | some p =>
        contractProject.getLoop Merge projectID expectedBlockNumber rest (Merge np p)
      | none => contractProject.getLoop Merge projectID expectedBlockNumber rest np

/-- The method `func (c *contractProject) get(projectID, expectedBlockNumber uint64)`:
the returned pair `(*contract.Project, error)`. -/
def contractProject.get (Merge : Project → Project → Project)
    (c : contractProject BlockProject) (projectID expectedBlockNumber : Nat) :
    Option Project × Option String :=
  let np := contractProject.getLoop Merge projectID expectedBlockNumber c.blocks
    Project.fresh
  if np.ID = 0 then
    (none, some ("failed to find project contract data at the block number, project_id "
      ++ toString projectID ++ ", expected_block_number " ++ toString expectedBlockNumber))
  else (some np, none)

/-! ## persistence/contract/prover.go: log processing -/

/-- What `l.Topics[0]` is compared with in the `switch` of `processProverLogs`: one of
the four prover event hashes (pairwise distinct Keccak-256 values), or any other hash,
such as `emptyHash`. -/
inductive Topic where
  | operatorSet
  | nodeTypeUpdated
  | proverPaused
  | proverResumed
  | other
deriving DecidableEq, Repr

/-- A `types.Log` as far as the embedded code reads it: its first topic, its block
number, its transaction index, and the payload the ABI decoders read. -/
structure Log where
  Topics0 : Topic
  BlockNumber : Nat
  TxIndex : Nat
  Data : List Nat
deriving DecidableEq, Repr

/-- The four decoders of the contract binding `*prover.Prover` that `processProverLogs`
calls (generated code outside the embedded files): for a log, `none` when the decoder
returns an error, else the decoded `e.Id.Uint64()` and the other event field. -/
structure ProverInstance where
  ParseOperatorSet : Log → Option (Nat × Address)
  ParseNodeTypeUpdated : Log → Option (Nat × Nat)
  ParseProverPaused : Log → Option Nat
  ParseProverResumed : Log → Option Nat

/-- Inner loop of the insertion sort behind `sort.Slice`,
`for j := i; j > a && less(data[j], data[j-1]); j-- { swap }`: the new element `x`
moves left past every element it is less than.  The sorted part is given last element
first. -/
def insertionStep {α : Type} (less : α → α → Bool) (x : α) : List α → List α
  | [] => [x]
  | y :: ys => if less x y then y :: insertionStep less x ys else x :: y :: ys

/-- The function `sort.Slice(data, less)` as the insertion sort the standard library
runs on short slices (at most 12 elements).  On longer slices the library runs an
unstable pattern-defeating quicksort; it returns the same slice whenever no two
elements compare equal, which is the case in every statement below that depends on
the order of equal elements. -/
def sortSlice {α : Type} (less : α → α → Bool) (data : List α) : List α :=
  (data.foldl (fun sortedRev x => insertionStep less x sortedRev) []).reverse

/-- The `less` closure of the first `sort.Slice` in `processProverLogs`. -/
def lessLog (a b : Log) : Bool :=
  if a.BlockNumber ≠ b.BlockNumber then decide (a.BlockNumber < b.BlockNumber)
  else decide (a.TxIndex < b.TxIndex)

/-- The `less` closure of the second `sort.Slice` in `processProverLogs`. -/
def lessBlockProver (a b : BlockProver) : Bool :=
  decide (a.BlockNumber < b.BlockNumber)

/-- The map `psMap := map[uint64]*BlockProver{}`: its keys in the order they were first
stored, and the binding of each key. -/
structure PsMap where
  keys : List Nat
  get : Nat → Option BlockProver

/-- The empty `psMap`. -/
def PsMap.empty : PsMap := { keys := [], get := fun _ => none }

/-- The assignment `psMap[k] = ps`. -/
def PsMap.store (m : PsMap) (k : Nat) (ps : BlockProver) : PsMap :=
  { keys := if k ∈ m.keys then m.keys else m.keys ++ [k]
    get := fun j => if j = k then some ps else m.get j }

/-- The loop `for _, p := range psMap { psSlice = append(psSlice, p) }`.  Go ranges over
a map in no fixed order; the slice is sorted by block number right after. -/
def PsMap.values (m : PsMap) : List BlockProver := m.keys.filterMap m.get

/-- The lookup `p, ok := ps.Provers[id]; if !ok { p = &Prover{ID: id} }`. -/
def proverOrNew (ps : BlockProver) (id : Nat) : Prover :=
  match ps.Provers id with
  | some p => p
  | none => { Prover.zero with ID := id }

/-- The assignment `ps.Provers[id] = p`. -/
def BlockProver.setProver (ps : BlockProver) (id : Nat) (p : Prover) : BlockProver :=
  { ps with Provers := fun i => if i = id then some p else ps.Provers i }

/-- The `switch l.Topics[0]` of `processProverLogs` on the diff `ps` of the log's block;
`none` is the `return false` after a decoding error. -/
def processProverLog (inst : ProverInstance) (ps : BlockProver) (l : Log) :
    Option BlockProver :=
  match l.Topics0 with
  | .operatorSet =>
    match inst.ParseOperatorSet l with
    | none => none
    | some (id, operator) =>
      some (ps.setProver id { proverOrNew ps id with OperatorAddress := operator })
  | .nodeTypeUpdated =>
    match inst.ParseNodeTypeUpdated l with
    | none => none
    | some (id, typ) => some (ps.setProver id { proverOrNew ps id with NodeTypes := typ })
  | .proverPaused =>
    match inst.ParseProverPaused l with
    | none => none
    | some id => some (ps.setProver id { proverOrNew ps id with Paused := some true })
  | .proverResumed =>
    match inst.ParseProverResumed l with
    | none => none
    | some id => some (ps.setProver id { proverOrNew ps id with Paused := some false })
  | .other => some ps

/-- The diff a log starts from: `ps, ok := psMap[l.BlockNumber]`, and when `!ok` the
new `&BlockProver{BlockNumber: l.BlockNumber, Provers: map[uint64]*Prover{}}`. -/
def PsMap.getOrNew (m : PsMap) (blockNumber : Nat) : BlockProver :=
  match m.get blockNumber with
  | some ps => ps
  | none => { BlockNumber := blockNumber, Provers := fun _ => none }

/-- The loop `for _, l := range logs` of `processProverLogs`; `none` is the
`return false` after a decoding error. -/
def processProverLogsLoop (inst : ProverInstance) : List Log → PsMap → Option PsMap
  | [], psMap => some psMap
  | l :: rest, psMap =>
    match processProverLog inst (psMap.getOrNew l.BlockNumber) l with
    | none => none
    | some ps => processProverLogsLoop inst rest (psMap.store l.BlockNumber ps)

/-- The function `processProverLogs(ch, logs, instance)`: the returned `bool` and the
diffs sent on `ch`, in order. -/
def processProverLogs (inst : ProverInstance) (logs : List Log) : Bool × List BlockProver :=
  if logs.length = 0 then (true, [])
  else
    let logs := sortSlice lessLog logs
    match processProverLogsLoop inst logs PsMap.empty with
    | none => (false, [])
    | some psMap => (true, sortSlice lessBlockProver psMap.values)

/-- Whether the decoder that `processProverLogs` picks for the log succeeds; a log with
an unrecognised topic is not decoded. -/
def parses (inst : ProverInstance) (l : Log) : Bool :=
  match l.Topics0 with
  | .operatorSet => (inst.ParseOperatorSet l).isSome
  | .nodeTypeUpdated => (inst.ParseNodeTypeUpdated l).isSome
  | .proverPaused => (inst.ParseProverPaused l).isSome
  | .proverResumed => (inst.ParseProverResumed l).isSome
  | .other => true

/-- Whether `Topics[0]` is one of the four prover event hashes. -/
def recognised (l : Log) : Bool :=
  match l.Topics0 with
  | .other => false
  | _ => true

/-- The state of the goroutine of `watchProver`: its variable `queriedBlockNumber` and
the diffs sent on `ch` so far. -/
structure ProverWatchState where
  queriedBlockNumber : Nat
  sent : List BlockProver

/-- One iteration of `for range ticker.C` in `watchProver`.  `latest` is the result of
`client.BlockNumber` and `FilterLogs a b` the result of `client.FilterLogs` for the
range; `Except.error` is a returned error.  The arithmetic is modulo `2 ^ 64`. -/
def watchProverTick (inst : ProverInstance) (step : Nat) (latest : Except String Nat)
    (FilterLogs : Nat → Nat → Except String (List Log)) (s : ProverWatchState) :
    ProverWatchState :=
  let fromBlock := (s.queriedBlockNumber + 1) % 2 ^ 64
  let toBlock := (fromBlock + step) % 2 ^ 64
  match latest with
  | .error _ => s
  | .ok latestBlockNumber =>
    let toBlock := if toBlock > latestBlockNumber then latestBlockNumber else toBlock
    if fromBlock > toBlock then s
    else
      match FilterLogs fromBlock toBlock with
      | .error _ => s
      | .ok logs =>
        let r := processProverLogs inst logs
        let s := { s with sent := s.sent ++ r.2 }
        if r.1 then { s with queriedBlockNumber := toBlock } else s

/-- The end of the range `[from, to]` that one iteration of `watchProver` queries. -/
def watchProverTo (step : Nat) (latestBlockNumber queriedBlockNumber : Nat) : Nat :=
  let fromBlock := (queriedBlockNumber + 1) % 2 ^ 64
  let toBlock := (fromBlock + step) % 2 ^ 64
  if toBlock > latestBlockNumber then latestBlockNumber else toBlock

/-- A decoder set for examples: the payload of a log is `[id]` for the pause and resume
events, `[id, typ]` for `NodeTypeUpdated`, and `id` followed by the 20 address bytes
for `OperatorSet`; any other payload is a decoding error. -/
def exampleInstance : ProverInstance :=
  { ParseOperatorSet := fun l =>
      match l.Data with
      | id :: addr => if addr.length = 20 then some (id, addr) else none
      | [] => none
    ParseNodeTypeUpdated := fun l =>
      match l.Data with
      | [id, typ] => some (id, typ)
      | _ => none
    ParseProverPaused := fun l =>
      match l.Data with
      | [id] => some id
      | _ => none
    ParseProverResumed := fun l =>
      match l.Data with
      | [id] => some id
      | _ => none }

/-- A `ProverPaused(id)` log. -/
def pausedLog (blockNumber txIndex id : Nat) : Log :=
  { Topics0 := .proverPaused, BlockNumber := blockNumber, TxIndex := txIndex, Data := [id] }

/-- A `ProverResumed(id)` log. -/
def resumedLog (blockNumber txIndex id : Nat) : Log :=
  { Topics0 := .proverResumed, BlockNumber := blockNumber, TxIndex := txIndex, Data := [id] }

/-- A log whose first topic is none of the four prover event hashes. -/
def otherLog (blockNumber txIndex : Nat) : Log :=
  { Topics0 := .other, BlockNumber := blockNumber, TxIndex := txIndex, Data := [] }

/-- The sort key that `lessLog` compares: block number first, then transaction index. -/
def logKey (l : Log) : ℕ ×ₗ ℕ := toLex (l.BlockNumber, l.TxIndex)

/-- What makes a `psMap` well formed: no key is listed twice, the listed keys are the
bound ones, and the diff bound to a block number carries that block number. -/
def PsMap.Valid (m : PsMap) : Prop :=
  m.keys.Nodup ∧ (∀ b, b ∈ m.keys ↔ (m.get b).isSome = true) ∧
    ∀ b ps, m.get b = some ps → ps.BlockNumber = b

/-- Whether the batch has a log with a recognised topic in the given block. -/
def hasRecognised (logs : List Log) (blockNumber : Nat) : Bool :=
  logs.any (fun l => recognised l && decide (l.BlockNumber = blockNumber))

/-! ## persistence/contract/contract.go: the watch loop -/

/-- What one call of `processProjectLogs` or of the callback form of
`processProverLogs` does, as far as `Contract.watch` can tell: the diffs it passed to
its `add` callback, in order, and the error it returned (`none` is `nil`).  Both
functions are declared outside the embedded files. -/
structure Processed (D : Type) where
  added : List D
  err : Option String

/-- The collaborators of one iteration of `Contract.watch`: `FilterLogs a b` is the
result of `c.client.FilterLogs` for the block range, `processProjectLogs` and
`processProverLogs` are the two log-processing functions.  `PJ` and `PV` are the diff
types `blockProject` and `blockProver`. -/
structure WatchDeps (PJ PV : Type) where
  FilterLogs : Nat → Nat → Except String (List Log)
  processProjectLogs : List Log → Processed PJ
  processProverLogs : List Log → Processed PV

/-- The state one iteration of `Contract.watch` acts on: the variable
`queriedBlockNumber`, the diffs added to `c.blockProjects` and to `c.blockProvers`, the
project diffs handed to `notifyProject`, the block numbers handed to `notifyChainHead`,
and the ranges `(FromBlock, ToBlock)` of the log queries made, each in order. -/
structure WatchState (PJ PV : Type) where
  queriedBlockNumber : Nat
  blockProjects : List PJ
  blockProvers : List PV
  projectNotified : List PJ
  chainHeadNotified : List Nat
  queried : List (Nat × Nat)

/-- The method `Contract.addBlockProject`: `c.blockProjects.add(bp)` then
`c.notifyProject(bp)`. -/
def addBlockProject {PJ PV : Type} (s : WatchState PJ PV) (bp : PJ) : WatchState PJ PV :=
  { s with blockProjects := s.blockProjects ++ [bp], projectNotified := s.projectNotified ++ [bp] }

/-- The placeholder `types.Log{Topics: []common.Hash{emptyHash}, BlockNumber: target}`
that `Contract.watch` substitutes for an empty batch. -/
def placeholderLog (target : Nat) : Log :=
  { Topics0 := .other, BlockNumber := target, TxIndex := 0, Data := [] }

/-- The batch one iteration of `Contract.watch` processes: the queried logs, or the
placeholder when there are none (`if len(logs) == 0`). -/
def watchBatch (target : Nat) (logs : List Log) : List Log :=
  if logs.length = 0 then [placeholderLog target] else logs

/-- One iteration of `for range ticker.C` in `Contract.watch`. -/
def watchTick {PJ PV : Type} (deps : WatchDeps PJ PV) (s : WatchState PJ PV) :
    WatchState PJ PV :=
  -- target := queriedBlockNumber + 1
  let target := (s.queriedBlockNumber + 1) % 2 ^ 64
  -- logs, err := c.client.FilterLogs(context.Background(), query)
  let s := { s with queried := s.queried ++ [(target, target)] }
  match deps.FilterLogs target target with
  | .error _ => s
  | .ok logs =>
    let logs := watchBatch target logs
    -- processProjectLogs(c.addBlockProject, logs, c.projectInstance)
    let pj := deps.processProjectLogs logs
    let s := pj.added.foldl addBlockProject s
    match pj.err with
    | some _ => s
    | none =>
      -- processProverLogs(c.blockProvers.add, logs, c.proverInstance)
      let pv := deps.processProverLogs logs
      let s := { s with blockProvers := s.blockProvers ++ pv.added }
      match pv.err with
      | some _ => s
      | none =>
        -- c.notifyChainHead(target); queriedBlockNumber = target
        { s with chainHeadNotified := s.chainHeadNotified ++ [target],
                 queriedBlockNumber := target }

/-- The callback form `processProverLogs(add, logs, instance) error` that
`Contract.watch` calls is declared outside the embedded files; this is the channel form
of `prover.go` with each send read as a call of `add` and `false` as an error. -/
def processProverLogsCallback (inst : ProverInstance) (logs : List Log) :
    Processed BlockProver :=
  let r := processProverLogs inst logs
  { added := r.2, err := if r.1 then none else some "failed to parse prover log" }

/-- Collaborators for an example iteration of `Contract.watch`: the chain returns, for
block 8, one project event (an unrecognised topic for the prover decoders) and one
`OperatorSet` log with an undecodable payload; the project step adds the project diff of
the block, written as its block number, and returns no error; the prover step decodes
as `processProverLogs` of `prover.go` does. -/
def exampleWatchDeps : WatchDeps Nat BlockProver :=
  { FilterLogs := fun a _ =>
      .ok [otherLog a 0,
           { Topics0 := .operatorSet, BlockNumber := a, TxIndex := 1, Data := [] }]
    processProjectLogs := fun logs => { added := (logs.take 1).map Log.BlockNumber, err := none }
    processProverLogs := processProverLogsCallback exampleInstance }

/-- The state of `Contract.watch` after listing up to block 7, nothing added yet. -/
def exampleWatchState : WatchState Nat BlockProver :=
  { queriedBlockNumber := 7, blockProjects := [], blockProvers := [], projectNotified := [],
    chainHeadNotified := [], queried := [] }

/-- How the `psMap` of a batch and the `psMap` of the same batch without its
unrecognised logs are related: on the blocks `S` that had a recognised log the two
agree, and every other block is unbound in the second and unbound or bound to an empty
diff in the first. -/
def PsMap.Filtered (S : Nat → Bool) (mF mG : PsMap) : Prop :=
  (∀ b, mG.get b = if S b = true then mF.get b else none) ∧
  (∀ b, S b = true → (mF.get b).isSome = true) ∧
  (∀ b, S b = false →
    mF.get b = none ∨ mF.get b = some { BlockNumber := b, Provers := fun _ => none })

/-! ## persistence/contract/contract.go: listing -/

/-- The subtraction `a - b` of two `uint64` values: the difference modulo `2 ^ 64`. -/
def uint64Sub (a b : Nat) : Nat := (a % 2 ^ 64 + 2 ^ 64 - b % 2 ^ 64) % 2 ^ 64

/-- The block range of the log query in `Contract.list`: from the block numbers that
`listProject` and `listProver` returned, `minBlockNumber := min(...)`,
`maxBlockNumber := max(...)`, `minBlockNumber = minBlockNumber - c.epoch`; the pair is
`(FromBlock, ToBlock)`. -/
def listRange (projectMinBlockNumber projectMaxBlockNumber proverMinBlockNumber
    proverMaxBlockNumber epoch : Nat) : Nat × Nat :=
  let minBlockNumber := min projectMinBlockNumber proverMinBlockNumber
  let maxBlockNumber := max projectMaxBlockNumber proverMaxBlockNumber
  let minBlockNumber := uint64Sub minBlockNumber epoch
  (minBlockNumber, maxBlockNumber)

/-- The statement `targetBlockNumber := latestBlockNumber - tracebackLength` of
`ListAndWatchProver`. -/
def listAndWatchProverTarget (latestBlockNumber tracebackLength : Nat) : Nat :=
  uint64Sub latestBlockNumber tracebackLength

/-- The map `blockProverMap` (and `blockProjectMap`) that the callback of
`Contract.list` fills, `blockProverMap[p.BlockNumber] = p`, from the diffs the log
processor passed to the callback, in order. -/
def listBlockMap {D : Type} (blockNumber : D → Nat) (decoded : List D) : Nat → Option D :=
  decoded.foldl (fun m p => fun n => if n = blockNumber p then some p else m n)
    (fun _ => none)

/-- The fill loop of `Contract.list`,
`for n := ...; n <= maxBlockNumber; n++ { p, ok := blockMap[n]; if ok { add(p) } else
{ add(empty diff of n) } }`: the diffs passed to `add`, in order.  The counter is a
`uint64`; `none` means the loop is still running after `fuel` iterations. -/
def listFillLoop {D : Type} (newDiff : Nat → D) (blockMap : Nat → Option D)
    (maxBlockNumber : Nat) : Nat → Nat → Option (List D)
  | 0, _ => none
  | fuel + 1, n =>
    if n ≤ maxBlockNumber then
      let d := match blockMap n with
        | some p => p
        | none => newDiff n
      match listFillLoop newDiff blockMap maxBlockNumber fuel ((n + 1) % 2 ^ 64) with
      | some rest => some (d :: rest)
      | none => none
    else some []

/-- The diffs that `Contract.list` adds to one history, in order: the baseline diff
(`c.blockProvers.add(minBlockProver)`), then the fill loop from `minBlockNumber + 1`. -/
def listAdds {D : Type} (newDiff : Nat → D) (minBlockDiff : D) (blockMap : Nat → Option D)
    (minBlockNumber maxBlockNumber fuel : Nat) : Option (List D) :=
  match listFillLoop newDiff blockMap maxBlockNumber fuel ((minBlockNumber + 1) % 2 ^ 64) with
  | some rest => some (minBlockDiff :: rest)
  | none => none

/-- The empty diff `&blockProver{BlockNumber: n, Provers: map[uint64]*Prover{}}`. -/
def emptyBlockProver (n : Nat) : BlockProver := { BlockNumber := n, Provers := fun _ => none }

/-- The inner loop of the baseline construction in `Contract.list`: walking the decoded
diffs from the back, every diff older than the snapshot that has an entry for the prover
is merged into the snapshot.  `merge` stands for the method `(*Prover).merge` of the
unified implementation, declared outside the embedded files. -/
def listMergeOlder (merge : Prover → Prover → Prover) (blockProvers : List BlockProver)
    (p : Prover) : Prover :=
  blockProvers.reverse.foldl
    (fun p ebp =>
      if ebp.BlockNumber ≥ p.BlockNumber then p
      else
        match ebp.Provers p.ID with
        | some ep => merge p ep
        | none => p)
    p

/-- The baseline diff `minBlockProver` of `Contract.list`: every listed prover, merged
with the older decoded diffs, retagged `p.BlockNumber = minBlockNumber` and stored under
its id. -/
def listBaseline (merge : Prover → Prover → Prover) (provers : List Prover)
    (blockProvers : List BlockProver) (minBlockNumber : Nat) : BlockProver :=
  provers.foldl
    (fun minBlockProver p =>
      let p := listMergeOlder merge blockProvers p
      let p := { p with BlockNumber := minBlockNumber }
      minBlockProver.setProver p.ID p)
    (emptyBlockProver minBlockNumber)

/-- A listed prover snapshot: the current state read from the contract at block 100. -/
def exampleSnapshot (id : Nat) : Prover :=
  { ID := id, OperatorAddress := List.replicate 20 1, BlockNumber := 100,
    Paused := some false, NodeTypes := 1 }

/-! ## persistence/contract/prover.go: the topic filter -/

/-- The slice `topics` that `ListAndWatchProver` hands to `watchProver`. -/
def listAndWatchProverTopics : List Topic :=
  [.operatorSet, .nodeTypeUpdated, .proverResumed]

/-- The first-position topic alternatives `{topics[0], topics[1], topics[2]}` that
`watchProver` puts into its `ethereum.FilterQuery`; `none` is the index-out-of-range
panic on a shorter slice. -/
def watchProverQueryTopics (topics : List Topic) : Option (List Topic) :=
  match topics with
  | t0 :: t1 :: t2 :: _ => some [t0, t1, t2]
  | _ => none

/-- Whether `eth_getLogs` returns the log for a query with the given first-position
alternatives: its first topic has to be one of them. -/
def matchesQuery (queryTopics : List Topic) (l : Log) : Bool :=
  decide (l.Topics0 ∈ queryTopics)

/-! ## task/dispatcher: the pub/sub callback -/

/-- Modelled from the spec: the struct `task.StateLog` is declared outside the embedded
files; the spec gives `StateLog = {TaskID, ProjectID, State, Comment, Result}`. -/
structure StateLog where
  TaskID : Nat
  ProjectID : Nat
  State : String
  Comment : String
  Result : List Nat
deriving DecidableEq, Repr

/-- Modelled from the spec: the struct `p2p.Data` is declared outside the embedded
files; the envelope carries a task or a state log, and the test builds it with
`TaskStateLog` set or left nil. -/
structure P2PData where
  TaskStateLog : Option StateLog
deriving DecidableEq, Repr

/-- Modelled from the spec: the method `(*dispatcher).handleP2PData` is declared outside
the embedded files; only its test is there.  By the spec and the three cases of
`TestDispatcher_handleP2PData`: an envelope without state log is dropped; the registry
`projectDispatchers` is looked up under the `ProjectID` of the state log; when no
dispatcher is registered the envelope is dropped; otherwise that dispatcher handles the
state log.  The result lists the calls `pd.handle(stateLog)` made, each as the
dispatcher and the state log; dispatchers are told apart by a number. -/
def handleP2PData (projectDispatchers : Nat → Option Nat) (data : P2PData) :
    List (Nat × StateLog) :=
  match data.TaskStateLog with
  | none => []
  | some s =>
    match projectDispatchers s.ProjectID with
    | none => []
    | some pd => [(pd, s)]

/-! # Theorems -/

/-! ## Merging provers -/

/-- Each field of `p.Merge diff` is the field of `diff` when that is non-default and
the field of `p` otherwise. -/
theorem Prover.Merge_fields (p diff : Prover) :
    (p.Merge diff).ID = (if diff.ID ≠ 0 then diff.ID else p.ID) ∧
    (p.Merge diff).OperatorAddress =
      (if diff.OperatorAddress ≠ emptyAddress then diff.OperatorAddress
        else p.OperatorAddress) ∧
    (p.Merge diff).BlockNumber =
      (if diff.BlockNumber ≠ 0 then diff.BlockNumber else p.BlockNumber) ∧
    (p.Merge diff).Paused = (if diff.Paused ≠ none then diff.Paused else p.Paused) ∧
    (p.Merge diff).NodeTypes =
      (if diff.NodeTypes ≠ 0 then diff.NodeTypes else p.NodeTypes) := by
  refine ⟨?_, ?_, ?_, ?_, ?_⟩ <;>
    simp only [Prover.Merge, apply_ite Prover.ID, apply_ite Prover.OperatorAddress,
      apply_ite Prover.BlockNumber, apply_ite Prover.Paused, apply_ite Prover.NodeTypes,
      ite_self]

/-- Two provers with the same five fields are equal. -/
theorem Prover_ext_fields {p q : Prover} (h1 : p.ID = q.ID)
    (h2 : p.OperatorAddress = q.OperatorAddress) (h3 : p.BlockNumber = q.BlockNumber)
    (h4 : p.Paused = q.Paused) (h5 : p.NodeTypes = q.NodeTypes) : p = q := by
  cases p; cases q; simp_all

/-- The copy `np := &Prover{}; np.Merge(p)` equals `p` field by field. -/
theorem Prover.zero_Merge (p : Prover) : Prover.zero.Merge p = p := by
  obtain ⟨h1, h2, h3, h4, h5⟩ := Prover.Merge_fields Prover.zero p
  apply Prover_ext_fields
  · rw [h1]; split_ifs with h
    · rfl
    · simp only [ne_eq, not_not] at h; rw [h]; rfl
  · rw [h2]; split_ifs with h
    · rfl
    · simp only [ne_eq, not_not] at h; rw [h]; rfl
  · rw [h3]; split_ifs with h
    · rfl
    · simp only [ne_eq, not_not] at h; rw [h]; rfl
  · rw [h4]; split_ifs with h
    · rfl
    · simp only [ne_eq, not_not] at h; rw [h]; rfl
  · rw [h5]; split_ifs with h
    · rfl
    · simp only [ne_eq, not_not] at h; rw [h]; rfl

/-- The method `Prover.Merge` is associative. -/
theorem Prover_Merge_assoc (p q r : Prover) : (p.Merge q).Merge r = p.Merge (q.Merge r) := by
  obtain ⟨a1, a2, a3, a4, a5⟩ := Prover.Merge_fields (p.Merge q) r
  obtain ⟨b1, b2, b3, b4, b5⟩ := Prover.Merge_fields p q
  obtain ⟨c1, c2, c3, c4, c5⟩ := Prover.Merge_fields p (q.Merge r)
  obtain ⟨d1, d2, d3, d4, d5⟩ := Prover.Merge_fields q r
  apply Prover_ext_fields
  · rw [a1, c1, b1, d1]; split_ifs <;> simp_all
  · rw [a2, c2, b2, d2]; split_ifs <;> simp_all
  · rw [a3, c3, b3, d3]; split_ifs <;> simp_all
  · rw [a4, c4, b4, d4]; split_ifs <;> simp_all
  · rw [a5, c5, b5, d5]; split_ifs <;> simp_all

/-- Two block diffs with the same block number and the same bindings are equal. -/
theorem BlockProver_ext_fields {a b : BlockProver} (h1 : a.BlockNumber = b.BlockNumber)
    (h2 : ∀ id, a.Provers id = b.Provers id) : a = b := by
  cases a; cases b
  simp only [BlockProver.mk.injEq] at *
  exact ⟨h1, funext h2⟩

/-- The binding of each id after the two loops of `BlockProver.Merge`. -/
theorem BlockProver.Merge_Provers (A diff : BlockProver) (id : Nat) :
    (A.Merge diff).Provers id =
      match A.Provers id, diff.Provers id with
      | some p, some d => some (p.Merge d)
      | none, some d => some d
      | some p, none => some p
      | none, none => none := by
  simp only [BlockProver.Merge, BlockProver.mergeExisting, BlockProver.insertMissing]
  cases hA : A.Provers id <;> cases hD : diff.Provers id <;> simp [Prover.zero_Merge]

/-- The method `BlockProver.Merge` is associative. -/
theorem BlockProver_Merge_assoc (A B C : BlockProver) :
    (A.Merge B).Merge C = A.Merge (B.Merge C) := by
  apply BlockProver_ext_fields
  · rfl
  · intro id
    simp only [BlockProver.Merge_Provers]
    cases hA : A.Provers id <;> cases hB : B.Provers id <;> cases hC : C.Provers id <;>
      simp [Prover_Merge_assoc]

/-- C4: `BlockProver.Merge(diff)` on accumulator `A` sets the block number to that of
`diff` unconditionally; an id present in both is bound to the field-wise
`Prover.Merge` of the old entry with the entry of `diff`; an id only in `diff` is bound
to an entry equal to the entry of `diff`; an id only in `A` keeps its entry; and the
key set of the result is the union of both key sets. -/
theorem BlockProver_Merge_spec (A diff : BlockProver) :
    (A.Merge diff).BlockNumber = diff.BlockNumber ∧
    (∀ id, (A.Merge diff).Provers id =
      match A.Provers id, diff.Provers id with
      | some p, some d => some (p.Merge d)
      | none, some d => some d
      | some p, none => some p
      | none, none => none) ∧
    keys (A.Merge diff).Provers = keys A.Provers ∪ keys diff.Provers := by
  refine ⟨rfl, BlockProver.Merge_Provers A diff, ?_⟩
  ext id
  simp only [keys, Set.mem_setOf_eq, Set.mem_union, BlockProver.Merge_Provers]
  cases hA : A.Provers id <;> cases hD : diff.Provers id <;> simp

/-- C5: `Prover.Merge(diff)` is field-wise "non-default value wins": each of `ID`,
`OperatorAddress`, `BlockNumber`, `Paused` and `NodeTypes` of the result is the field
of `diff` when that is non-default (non-zero, not the zero address, non-nil) and the
previous field of the receiver otherwise. -/
theorem Prover_Merge_fieldwise (p diff : Prover) :
    (p.Merge diff).ID = (if diff.ID ≠ 0 then diff.ID else p.ID) ∧
    (p.Merge diff).OperatorAddress =
      (if diff.OperatorAddress ≠ emptyAddress then diff.OperatorAddress
        else p.OperatorAddress) ∧
    (p.Merge diff).BlockNumber =
      (if diff.BlockNumber ≠ 0 then diff.BlockNumber else p.BlockNumber) ∧
    (p.Merge diff).Paused = (if diff.Paused ≠ none then diff.Paused else p.Paused) ∧
    (p.Merge diff).NodeTypes =
      (if diff.NodeTypes ≠ 0 then diff.NodeTypes else p.NodeTypes) :=
  Prover.Merge_fields p diff

/-- C6: merging is associative and latest-wins: merging `B` then `C` onto `A` gives the
same `BlockProver` as merging onto `A` the result of merging `C` onto `B`; and for an id
bound in both `B` and `C`, every field that both set to a non-default value carries the
value of `C` in the result. -/
theorem Merge_assoc_latest_wins (A B C : BlockProver) :
    (A.Merge B).Merge C = A.Merge (B.Merge C) ∧
    ∀ id b c, B.Provers id = some b → C.Provers id = some c →
      ∃ r, ((A.Merge B).Merge C).Provers id = some r ∧
        (b.ID ≠ 0 → c.ID ≠ 0 → r.ID = c.ID) ∧
        (b.OperatorAddress ≠ emptyAddress → c.OperatorAddress ≠ emptyAddress →
          r.OperatorAddress = c.OperatorAddress) ∧
        (b.BlockNumber ≠ 0 → c.BlockNumber ≠ 0 → r.BlockNumber = c.BlockNumber) ∧
        (b.Paused ≠ none → c.Paused ≠ none → r.Paused = c.Paused) ∧
        (b.NodeTypes ≠ 0 → c.NodeTypes ≠ 0 → r.NodeTypes = c.NodeTypes) := by
  refine ⟨BlockProver_Merge_assoc A B C, ?_⟩
  intro id b c hB hC
  have hAB : ∃ q, (A.Merge B).Provers id = some q := by
    rw [BlockProver.Merge_Provers, hB]
    cases hA : A.Provers id <;> simp
  obtain ⟨q, hq⟩ := hAB
  refine ⟨q.Merge c, ?_, ?_⟩
  · rw [BlockProver.Merge_Provers, hq, hC]
  · obtain ⟨h1, h2, h3, h4, h5⟩ := Prover.Merge_fields q c
    refine ⟨?_, ?_, ?_, ?_, ?_⟩
    · intro _ h; rw [h1, if_pos h]
    · intro _ h; rw [h2, if_pos h]
    · intro _ h; rw [h3, if_pos h]
    · intro _ h; rw [h4, if_pos h]
    · intro _ h; rw [h5, if_pos h]

/-! ## Reading the history -/

/-- On a list with non-decreasing block numbers the loop of `get` merges exactly the
entries with `BlockNumber ≤ n`, in list order. -/
theorem contractProver.getLoop_eq_foldl (n : Nat) (l : List BlockProver) (np : BlockProver)
    (h : l.Pairwise (fun a b => a.BlockNumber ≤ b.BlockNumber)) :
    contractProver.getLoop n l np =
      (l.filter (fun d => decide (d.BlockNumber ≤ n))).foldl BlockProver.Merge np := by
  induction l generalizing np with
  | nil => rfl
  | cons ep rest ih =>
    rw [List.pairwise_cons] at h
    obtain ⟨h1, h2⟩ := h
    by_cases hlt : n < ep.BlockNumber
    · have hnil : (ep :: rest).filter (fun d => decide (d.BlockNumber ≤ n)) = [] := by
        rw [List.filter_eq_nil_iff]
        intro d hd
        rcases List.mem_cons.1 hd with rfl | hd
        · simpa using hlt
        · have := h1 d hd
          simp only [decide_eq_true_eq, not_le]
          omega
      rw [hnil]
      simp [contractProver.getLoop, hlt]
    · have hle : ep.BlockNumber ≤ n := Nat.le_of_not_lt hlt
      simp only [contractProver.getLoop, hlt, if_false, List.filter_cons, hle, decide_True,
        if_true, List.foldl_cons]
      exact ih _ h2

/-- In a strictly increasing list the entries with block number at most that of the
`k`-th entry are the first `k + 1` entries. -/
theorem filter_le_eq_take (ds : List BlockProver)
    (hinc : ds.Pairwise (fun a b => a.BlockNumber < b.BlockNumber)) (k : Nat)
    (hk : k < ds.length) :
    ds.filter (fun d => decide (d.BlockNumber ≤ (ds[k]).BlockNumber)) = ds.take (k + 1) := by
  induction ds generalizing k with
  | nil => simp at hk
  | cons a rest ih =>
    rw [List.pairwise_cons] at hinc
    obtain ⟨h1, h2⟩ := hinc
    cases k with
    | zero =>
      have hnil : rest.filter (fun d => decide (d.BlockNumber ≤ a.BlockNumber)) = [] := by
        rw [List.filter_eq_nil_iff]
        intro d hd
        have := h1 d hd
        simp only [decide_eq_true_eq, not_le]
        exact this
      simp [List.filter_cons, hnil]
    | succ k =>
      have hk2 : k < rest.length := by simpa using hk
      have hlt : a.BlockNumber < (rest[k]).BlockNumber := h1 _ (List.getElem_mem _)
      have := ih h2 k hk2
      simp only [List.getElem_cons_succ, List.filter_cons, Nat.le_of_lt hlt, decide_True,
        if_true, List.take_succ_cons, this]

/-- C1: for every stored history whose block numbers are non-decreasing from front to
back and every block number `n`, `get(n)` is the left fold of `BlockProver.Merge`, from
an empty accumulator, over the stored diffs with `BlockNumber ≤ n` in insertion order
(so a later-added diff is merged after an earlier one with the same block number). -/
theorem get_eq_foldl_of_sorted (c : contractProver) (n : Nat)
    (h : c.blocks.Pairwise (fun a b => a.BlockNumber ≤ b.BlockNumber)) :
    c.get n =
      (c.blocks.filter (fun d => decide (d.BlockNumber ≤ n))).foldl BlockProver.Merge
        BlockProver.empty :=
  contractProver.getLoop_eq_foldl n c.blocks BlockProver.empty h

/-- C1 at a history with two diffs at block 10 and one at block 12, read at block 10:
both diffs of block 10 are merged, the later-added one last. -/
theorem get_eq_foldl_of_sorted_witness :
    (([exampleDiff 10 1, exampleDiff 10 2, exampleDiff 12 3] : List BlockProver).Pairwise
        (fun a b => a.BlockNumber ≤ b.BlockNumber)) ∧
    (contractProver.mk 3 [exampleDiff 10 1, exampleDiff 10 2, exampleDiff 12 3]).get 10 =
      (BlockProver.empty.Merge (exampleDiff 10 1)).Merge (exampleDiff 10 2) :=
  ⟨by decide,
   get_eq_foldl_of_sorted ⟨3, [exampleDiff 10 1, exampleDiff 10 2, exampleDiff 12 3]⟩ 10
     (by decide)⟩

/-! ## Writing the history -/

/-- For an epoch below `2 ^ 63` the conversion to `int` keeps the value. -/
theorem intOfUint64_of_lt {e : Nat} (h : e < 2 ^ 63) : intOfUint64 e = (e : Int) := by
  have h1 : e % 2 ^ 64 = e := Nat.mod_eq_of_lt (by omega)
  unfold intOfUint64
  rw [h1, if_pos h]

/-- The conversion to `int` never exceeds the value. -/
theorem intOfUint64_le (e : Nat) : intOfUint64 e ≤ (e : Int) := by
  unfold intOfUint64
  have h1 : e % 2 ^ 64 ≤ e := Nat.mod_le _ _
  split_ifs <;> omega

/-- What `contractProver.set` does: below the overflow threshold it returns with the
diff appended; on the overflow branch it panics, leaving the list with the diff
appended and, when there were two entries to merge, the oldest entry removed. -/
theorem contractProver_set_eq (c : contractProver) (d : BlockProver) :
    c.set d =
      if ((c.blocks ++ [d]).length : Int) > intOfUint64 c.epoch then
        .panicked { c with blocks := c.blocks.tail ++ [d] }
      else .returned { c with blocks := c.blocks ++ [d] } := by
  unfold contractProver.set
  rcases c with ⟨ep, _ | ⟨b, bs⟩⟩
  · simp [listFront, Element.Next]
  · cases bs <;> simp [listFront, Element.Next, listRemove]

/-- What `contractProject.set` does, for every diff type and merge: as
`contractProver.set`. -/
theorem contractProject_set_eq {BP : Type} (Merge : BP → BP → BP) (fresh : BP)
    (c : contractProject BP) (d : BP) :
    contractProject.set Merge fresh c d =
      if ((c.blocks ++ [d]).length : Int) > intOfUint64 c.epoch then
        .panicked { c with blocks := c.blocks.tail ++ [d] }
      else .returned { c with blocks := c.blocks ++ [d] } := by
  unfold contractProject.set
  rcases c with ⟨ep, _ | ⟨b, bs⟩⟩
  · simp [listFront, Element.Next]
  · cases bs <;> simp [listFront, Element.Next, listRemove]

/-- A call of `set` leaves `epoch` as it was. -/
theorem contractProver.set_state_epoch (c : contractProver) (d : BlockProver) :
    (c.set d).state.epoch = c.epoch := by
  rw [contractProver_set_eq]
  split_ifs <;> rfl

/-- A call of `set` on a list of at most `epoch + 1` entries leaves at most `epoch + 1`
entries. -/
theorem contractProver.set_state_length (c : contractProver) (d : BlockProver)
    (h : c.blocks.length ≤ c.epoch + 1) : (c.set d).state.blocks.length ≤ c.epoch + 1 := by
  rw [contractProver_set_eq]
  have hle := intOfUint64_le c.epoch
  split_ifs with hov
  · simp only [Outcome.state, List.length_append, List.length_tail, List.length_singleton]
    omega
  · simp only [Outcome.state, List.length_append, List.length_singleton] at hov ⊢
    omega

/-- The length bound is kept along calls that continue after a panic. -/
theorem contractProver.setEach_inv (ds : List BlockProver) (c : contractProver)
    (h : c.blocks.length ≤ c.epoch + 1) :
    (c.setEach ds).epoch = c.epoch ∧ (c.setEach ds).blocks.length ≤ c.epoch + 1 := by
  induction ds generalizing c with
  | nil => exact ⟨rfl, h⟩
  | cons d ds ih =>
    have h1 := contractProver.set_state_epoch c d
    have h2 := contractProver.set_state_length c d h
    have := ih (c.set d).state (by rw [h1]; exact h2)
    rw [h1] at this
    exact this

/-- The length bound is kept along calls that end at the first panic. -/
theorem contractProver.setAll_inv (ds : List BlockProver) (c : contractProver)
    (h : c.blocks.length ≤ c.epoch + 1) :
    (c.setAll ds).state.epoch = c.epoch ∧ (c.setAll ds).state.blocks.length ≤ c.epoch + 1 := by
  induction ds generalizing c with
  | nil => exact ⟨rfl, h⟩
  | cons d ds ih =>
    have h1 := contractProver.set_state_epoch c d
    have h2 := contractProver.set_state_length c d h
    simp only [contractProver.setAll]
    cases hs : c.set d with
    | returned c1 =>
      rw [hs] at h1 h2
      simp only [Outcome.state] at h1 h2
      have := ih c1 (by rw [h1]; exact h2)
      rw [h1] at this
      exact this
    | panicked c1 =>
      rw [hs] at h1 h2
      exact ⟨h1, h2⟩

/-- While the list stays within `epoch` entries every call returns and the list is the
stream appended. -/
theorem contractProver.setAll_no_overflow (ds : List BlockProver) (c : contractProver)
    (hep : c.epoch < 2 ^ 63) (hlen : c.blocks.length + ds.length ≤ c.epoch) :
    c.setAll ds = .returned { c with blocks := c.blocks ++ ds } := by
  induction ds generalizing c with
  | nil => simp [contractProver.setAll]
  | cons d ds ih =>
    have hs : c.set d = .returned { c with blocks := c.blocks ++ [d] } := by
      rw [contractProver_set_eq, intOfUint64_of_lt hep, if_neg]
      simp only [List.length_append, List.length_singleton, List.length_cons,
        List.length_nil] at hlen ⊢
      omega
    simp only [contractProver.setAll, hs]
    rw [ih]
    · simp
    · exact hep
    · simp only [List.length_append, List.length_singleton, List.length_cons,
        List.length_nil] at hlen ⊢
      omega

/-- In a strictly increasing list every entry is below a value above the last entry. -/
theorem lt_of_lt_getLast {l : List BlockProver} {d : BlockProver}
    (hs : l.Pairwise (fun a b => a.BlockNumber < b.BlockNumber))
    (hd : ∀ b ∈ l.getLast?, b.BlockNumber < d.BlockNumber) :
    ∀ x ∈ l, x.BlockNumber < d.BlockNumber := by
  induction l with
  | nil => intro x hx; cases hx
  | cons a rest ih =>
    rw [List.pairwise_cons] at hs
    intro x hx
    cases rest with
    | nil =>
      simp only [List.mem_singleton] at hx
      subst hx
      exact hd x (by simp)
    | cons b rest2 =>
      have hd2 : ∀ y ∈ (b :: rest2).getLast?, y.BlockNumber < d.BlockNumber := by
        intro y hy
        apply hd y
        simpa [List.getLast?_cons_cons] using hy
      have hall := ih hs.2 hd2
      rcases List.mem_cons.1 hx with rfl | hx
      · exact Nat.lt_trans (hs.1 b (by simp)) (hall b (by simp))
      · exact hall x hx

/-- C2, amended: for every epoch below `2 ^ 63` and every sequence of prover diffs with
strictly increasing block numbers that is no longer than the epoch (so no call reaches
the overflow branch), added in order by `set` to an empty history, every call returns
and for every `k`, `get` at the block number of the `k`-th diff is the left-fold merge of
the first `k` diffs onto an empty accumulator. -/
theorem get_after_sets_without_overflow (epoch : Nat) (ds : List BlockProver)
    (hinc : ds.Pairwise (fun a b => a.BlockNumber < b.BlockNumber))
    (hlen : ds.length ≤ epoch) (hep : epoch < 2 ^ 63) :
    ∃ c, (contractProver.new epoch).setAll ds = .returned c ∧
      ∀ k (hk : k < ds.length),
        c.get (ds[k]).BlockNumber =
          (ds.take (k + 1)).foldl BlockProver.Merge BlockProver.empty := by
  refine ⟨{ epoch := epoch, blocks := ds }, ?_, ?_⟩
  · have := contractProver.setAll_no_overflow ds (contractProver.new epoch) hep
      (by simpa [contractProver.new] using hlen)
    simpa [contractProver.new] using this
  · intro k hk
    have hsorted : ds.Pairwise (fun a b => a.BlockNumber ≤ b.BlockNumber) :=
      hinc.imp (fun h => Nat.le_of_lt h)
    show contractProver.getLoop _ ds BlockProver.empty = _
    rw [contractProver.getLoop_eq_foldl _ ds _ hsorted, filter_le_eq_take ds hinc k hk]

/-- C2, amended, at epoch 3 with diffs at blocks 10, 11, 12. -/
theorem get_after_sets_without_overflow_witness :
    ∃ c, (contractProver.new 3).setAll [exampleDiff 10 1, exampleDiff 11 2, exampleDiff 12 3]
        = .returned c ∧
      ∀ k (hk : k < [exampleDiff 10 1, exampleDiff 11 2, exampleDiff 12 3].length),
        c.get ([exampleDiff 10 1, exampleDiff 11 2, exampleDiff 12 3][k]).BlockNumber =
          ([exampleDiff 10 1, exampleDiff 11 2, exampleDiff 12 3].take (k + 1)).foldl
            BlockProver.Merge BlockProver.empty :=
  get_after_sets_without_overflow 3 [exampleDiff 10 1, exampleDiff 11 2, exampleDiff 12 3]
    (by decide) (by decide) (by decide)

/-- C2 fails at epoch 3 with diffs at blocks 10 to 14: the calls do not all return, and
`get(10)` on the history they leave is not the merge of the first diff; when the calls
go on after each panic, `get(10)` and `get(14)` both differ from the left-fold merges of
the first one and of all five diffs. -/
theorem get_after_overflow_counterexample :
    ((contractProver.new 3).setAll exampleStream).isReturned = false ∧
    ((contractProver.new 3).setAll exampleStream).state.get 10 ≠
      (exampleStream.take 1).foldl BlockProver.Merge BlockProver.empty ∧
    ((contractProver.new 3).setEach exampleStream).get 10 ≠
      (exampleStream.take 1).foldl BlockProver.Merge BlockProver.empty ∧
    ((contractProver.new 3).setEach exampleStream).get 14 ≠
      (exampleStream.take 5).foldl BlockProver.Merge BlockProver.empty := by
  refine ⟨by decide, ?_, ?_, ?_⟩
  · intro h
    have := congrArg BlockProver.BlockNumber h
    revert this
    decide
  · intro h
    have := congrArg BlockProver.BlockNumber h
    revert this
    decide
  · intro h
    have := congrArg (fun b => b.Provers 1) h
    revert this
    decide

/-- C3 at epoch 1 with diffs at blocks 1 and 2: the second `set` panics on the overflow
branch; the list it leaves holds only the diff of block 2, so `get(2)` has lost prover 1,
which the history that stored both diffs without collapsing still reports. -/
theorem set_overflow_loses_oldest_diff :
    ((contractProver.new 1).setAll [exampleDiff 1 1, exampleDiff 2 2]).isReturned = false ∧
    ((contractProver.new 1).setAll [exampleDiff 1 1, exampleDiff 2 2]).state.blocks.map
        BlockProver.BlockNumber = [2] ∧
    (((contractProver.new 1).setAll [exampleDiff 1 1, exampleDiff 2 2]).state.get 2).Provers 1
        = none ∧
    (((contractProver.new 1).store [exampleDiff 1 1, exampleDiff 2 2]).get 2).Provers 1 =
      some { ID := 1, OperatorAddress := emptyAddress, BlockNumber := 0, Paused := none,
             NodeTypes := 1 } := by
  refine ⟨by decide, by decide, by decide, by decide⟩

/-- C7 at epoch 1 with one stored diff (block 1) and a new diff (block 2): `set` does
not return; it leaves the new diff alone in the list, not the merge of the two, whose
entry for prover 1 is missing; `contractProject.set` does the same for every diff type
and merge. -/
theorem set_overflow_panics_before_collapse :
    ((contractProver.mk 1 [exampleDiff 1 1]).set (exampleDiff 2 2)).isReturned = false ∧
    ((contractProver.mk 1 [exampleDiff 1 1]).set (exampleDiff 2 2)).state.blocks.map
        BlockProver.BlockNumber = [2] ∧
    ((contractProver.mk 1 [exampleDiff 1 1]).set (exampleDiff 2 2)).state.blocks.map
        (fun b => b.Provers 1) = [none] ∧
    ((BlockProver.empty.Merge (exampleDiff 1 1)).Merge (exampleDiff 2 2)).Provers 1 =
      some { ID := 1, OperatorAddress := emptyAddress, BlockNumber := 0, Paused := none,
             NodeTypes := 1 } ∧
    (∀ (BP : Type) (Merge : BP → BP → BP) (fresh d1 d2 : BP),
      (contractProject.set Merge fresh ⟨1, [d1]⟩ d2).isReturned = false ∧
      (contractProject.set Merge fresh ⟨1, [d1]⟩ d2).state.blocks = [d2]) := by
  refine ⟨by decide, by decide, by decide, by decide, ?_⟩
  intro BP Merge fresh d1 d2
  rw [contractProject_set_eq]
  constructor <;> rfl

/-- C8: if the stored diffs have strictly increasing block numbers and the diff passed
to `set` has a block number greater than the newest stored one, then the list the call
leaves, whether it returns or ends on the overflow branch, still has strictly increasing
block numbers. -/
theorem set_preserves_strictly_increasing (c : contractProver) (d : BlockProver)
    (hs : c.blocks.Pairwise (fun a b => a.BlockNumber < b.BlockNumber))
    (hd : ∀ b ∈ c.blocks.getLast?, b.BlockNumber < d.BlockNumber) :
    (c.set d).state.blocks.Pairwise (fun a b => a.BlockNumber < b.BlockNumber) := by
  have hall := lt_of_lt_getLast hs hd
  rw [contractProver_set_eq]
  split_ifs
  · simp only [Outcome.state]
    rw [List.pairwise_append]
    refine ⟨hs.sublist (List.tail_sublist _), List.pairwise_singleton _ _, ?_⟩
    intro a ha b hb
    simp only [List.mem_singleton] at hb
    subst hb
    exact hall a (List.mem_of_mem_tail ha)
  · simp only [Outcome.state]
    rw [List.pairwise_append]
    refine ⟨hs, List.pairwise_singleton _ _, ?_⟩
    intro a ha b hb
    simp only [List.mem_singleton] at hb
    subst hb
    exact hall a ha

/-- C8 at epoch 3 with stored blocks 10, 11 and a new diff at block 12. -/
theorem set_preserves_strictly_increasing_witness :
    ((contractProver.mk 3 [exampleDiff 10 1, exampleDiff 11 2]).set
        (exampleDiff 12 3)).state.blocks.Pairwise
      (fun a b => a.BlockNumber < b.BlockNumber) :=
  set_preserves_strictly_increasing ⟨3, [exampleDiff 10 1, exampleDiff 11 2]⟩
    (exampleDiff 12 3) (by decide) (by simp [exampleDiff])

/-- C9: for every epoch and every sequence of `set` calls starting from an empty
history, the number of stored diffs after each call is at most `epoch + 1`, both when
the sequence ends at the first panic and when it goes on after a panic. -/
theorem set_length_le_epoch_succ (epoch : Nat) (ds : List BlockProver) :
    ((contractProver.new epoch).setAll ds).state.blocks.length ≤ epoch + 1 ∧
    ((contractProver.new epoch).setEach ds).blocks.length ≤ epoch + 1 :=
  ⟨(contractProver.setAll_inv ds (contractProver.new epoch) (Nat.zero_le _)).2,
   (contractProver.setEach_inv ds (contractProver.new epoch) (Nat.zero_le _)).2⟩

/-! ## Sessions -/

/-- C10: `VerifySessionAndProjectPermission(token, projectID)` returns a DID with no
error iff the session map binds the token to a client whose project set contains
`projectID`, and the DID is then the `ClientDID` of that client; a token bound to no
client yields the invalid-token error and a bound token whose client lacks `projectID`
yields the permission-denied error, both with an empty DID. -/
theorem VerifySessionAndProjectPermission_spec (sessions : Sessions) (vctoken : String)
    (projectID : Nat) :
    (∀ did, VerifySessionAndProjectPermission sessions vctoken projectID = (did, none) ↔
      ∃ client, sessions vctoken = some (some client) ∧ projectID ∈ client.projects ∧
        did = client.ClientDID) ∧
    ((¬ ∃ client, sessions vctoken = some (some client)) →
      VerifySessionAndProjectPermission sessions vctoken projectID =
        ("", some "invalid token or expired")) ∧
    (∀ client, sessions vctoken = some (some client) → projectID ∉ client.projects →
      VerifySessionAndProjectPermission sessions vctoken projectID =
        ("", some "project permission denied")) := by
  unfold VerifySessionAndProjectPermission
  rcases hs : sessions vctoken with _ | _ | client
  · simp
  · simp
  · by_cases hp : projectID ∈ client.projects
    · simp only [hp, not_true_eq_false, if_false]
      refine ⟨?_, ?_, ?_⟩
      · intro did
        constructor
        · intro h
          have hd : client.ClientDID = did := congrArg Prod.fst h
          exact ⟨client, rfl, hp, hd.symm⟩
        · rintro ⟨c2, hc, _, hd⟩
          have : c2 = client := (Option.some.inj (Option.some.inj hc)).symm
          rw [hd, this]
      · intro h
        exact absurd ⟨client, rfl⟩ h
      · intro c2 hc hn
        have : c2 = client := (Option.some.inj (Option.some.inj hc)).symm
        rw [this] at hn
        exact absurd hp hn
    · simp only [hp, not_false_eq_true, if_true]
      refine ⟨?_, ?_, ?_⟩
      · intro did
        constructor
        · intro h
          have := congrArg Prod.snd h
          simp at this
        · rintro ⟨c2, hc, hin, _⟩
          have : c2 = client := (Option.some.inj (Option.some.inj hc)).symm
          rw [this] at hin
          exact absurd hin hp
      · intro h
        exact absurd ⟨client, rfl⟩ h
      · intro _ _ _
        trivial

/-- The binding of a token after a sequence of `CreateSession` calls: the client of the
last successful call made with that token, else the binding it had before. -/
theorem CreateSessions_apply (manager : Manager) (calls : List (String × String))
    (sessions : Sessions) (vctoken : String) :
    CreateSessions manager sessions calls vctoken =
      match lastBound manager calls vctoken with
      | some c => some (some c)
      | none => sessions vctoken := by
  induction calls generalizing sessions with
  | nil => simp [CreateSessions, lastBound]
  | cons call rest ih =>
    obtain ⟨t, did⟩ := call
    simp only [CreateSessions]
    rw [ih]
    simp only [lastBound, List.reverse_cons, List.findSome?_append]
    cases hrest : rest.reverse.findSome?
        (fun call => if call.1 = vctoken then manager call.2 else none) with
    | some c => simp
    | none =>
      simp only [Option.none_or, List.findSome?_cons, List.findSome?_nil, CreateSession]
      by_cases ht : t = vctoken
      · cases hm : manager did with
        | none => simp [ht]
        | some c => simp [ht, Sessions.Store]
      · cases hm : manager did with
        | none => simp [ht]
        | some c =>
          have : ¬ vctoken = t := fun h => ht h.symm
          simp [ht, Sessions.Store, this]

/-- The check `VerifySessionAndProjectPermission` returns no error exactly for a token
bound to a client whose project set contains the project. -/
theorem VerifySession_ok_iff (sessions : Sessions) (vctoken : String) (projectID : Nat) :
    (VerifySessionAndProjectPermission sessions vctoken projectID).2 = none ↔
      ∃ client, sessions vctoken = some (some client) ∧ projectID ∈ client.projects := by
  unfold VerifySessionAndProjectPermission
  rcases hs : sessions vctoken with _ | _ | client
  · simp
  · simp
  · by_cases hp : projectID ∈ client.projects <;> simp [hp]

/-- C11, amended: for every sequence of `CreateSession` calls on an empty session map,
a token `T` authorizes project `P` iff the last call `CreateSession(T, C)` that
succeeded (a client DID the manager knows) was for a client `C` that has `P` in its
project set. -/
theorem token_authorizes_iff_last_bound (manager : Manager) (calls : List (String × String))
    (vctoken : String) (projectID : Nat) :
    (VerifySessionAndProjectPermission (CreateSessions manager Sessions.empty calls) vctoken
        projectID).2 = none ↔
      ∃ client, lastBound manager calls vctoken = some client ∧
        projectID ∈ client.projects := by
  rw [VerifySession_ok_iff, CreateSessions_apply]
  cases hl : lastBound manager calls vctoken with
  | none => simp [Sessions.empty]
  | some c => simp

/-- C11 fails when a token is bound twice: after `CreateSession("tok", "c1")` and
`CreateSession("tok", "c2")`, with `c1` holding project 2 and `c2` holding none,
`CreateSession("tok", C)` was called for a client that has project 2, yet the token
does not authorize project 2. -/
theorem token_rebound_counterexample :
    (∃ call ∈ [("tok", "c1"), ("tok", "c2")], call.1 = "tok" ∧
      ∃ client, exampleManager call.2 = some client ∧ 2 ∈ client.projects) ∧
    VerifySessionAndProjectPermission
      (CreateSessions exampleManager Sessions.empty [("tok", "c1"), ("tok", "c2")]) "tok" 2 =
      ("", some "project permission denied") := by
  refine ⟨⟨("tok", "c1"), by simp, rfl, { ClientDID := "c1", projects := {2} }, by decide,
    by decide⟩, by decide⟩

/-- C12: `CreateSession(token, clientDID)` returns an error iff the client manager has
no client for `clientDID`; on error the session map is unchanged; on success the map
binds `token` to that client and the binding of every other token is unchanged. -/
theorem CreateSession_spec (manager : Manager) (sessions : Sessions)
    (vctoken clientdid : String) :
    ((CreateSession manager sessions vctoken clientdid).1 ≠ none ↔
      manager clientdid = none) ∧
    (manager clientdid = none →
      (CreateSession manager sessions vctoken clientdid).2 = sessions) ∧
    (∀ client, manager clientdid = some client →
      (CreateSession manager sessions vctoken clientdid).1 = none ∧
      (CreateSession manager sessions vctoken clientdid).2 vctoken = some (some client) ∧
      ∀ t, t ≠ vctoken →
        (CreateSession manager sessions vctoken clientdid).2 t = sessions t) := by
  unfold CreateSession
  cases hm : manager clientdid with
  | none => simp
  | some c =>
    refine ⟨by simp, by simp, ?_⟩
    intro client hc
    cases hc
    refine ⟨rfl, by simp [Sessions.Store], ?_⟩
    intro t ht
    simp [Sessions.Store, ht]

/-- C13: `VerifyProjectPermissionByClientDID(clientDID, projectID)` returns no error iff
the client manager knows `clientDID` and that client has permission for `projectID`;
a client `c1` whose projects are `{2}` is rejected for project 3 and accepted for
project 2. -/
theorem VerifyProjectPermissionByClientDID_spec (manager : Manager) (clientID : String)
    (projectID : Nat) :
    (VerifyProjectPermissionByClientDID manager clientID projectID = none ↔
      ∃ client, manager clientID = some client ∧
        client.HasProjectPermission projectID = true) ∧
    VerifyProjectPermissionByClientDID exampleManager "c1" 3 =
      some "no project permission c1 3" ∧
    VerifyProjectPermissionByClientDID exampleManager "c1" 2 = none := by
  refine ⟨?_, by decide, by decide⟩
  unfold VerifyProjectPermissionByClientDID
  cases hm : manager clientID with
  | none => simp
  | some c =>
    by_cases hp : c.HasProjectPermission projectID = true
    · simp [hp]
    · simp [hp]

/-! ## Reading the project history -/

/-- When no visited diff holds the project, the loop of `contractProject.get` leaves the
accumulator as it was. -/
theorem contractProject.getLoop_of_absent (Merge : Project → Project → Project)
    (projectID n : Nat) (l : List BlockProject) (np : Project)
    (h : ∀ d ∈ l, d.BlockNumber ≤ n → d.Projects projectID = none) :
    contractProject.getLoop Merge projectID n l np = np := by
  induction l generalizing np with
  | nil => rfl
  | cons ep rest ih =>
    unfold contractProject.getLoop
    by_cases hlt : n < ep.BlockNumber
    · simp [hlt]
    · have hnone : ep.Projects projectID = none :=
        h ep (List.mem_cons_self _ _) (Nat.le_of_not_lt hlt)
      simp only [hlt, if_false, hnone]
      exact ih np (fun d hd => h d (List.mem_cons_of_mem _ hd))

/-- C14: `contractProject.get(projectID, n)` never returns a project whose `ID` is 0:
every project it returns has a non-zero `ID`; whenever the snapshot merged from the
stored diffs has `ID` 0 it returns no project and an error, and otherwise it returns
that snapshot; in particular it returns an error whenever no stored diff with
`BlockNumber ≤ n` contains `projectID`.  This holds for every `Project.Merge`. -/
theorem contractProject_get_never_zero (Merge : Project → Project → Project)
    (c : contractProject BlockProject) (projectID n : Nat) :
    (∀ p, (contractProject.get Merge c projectID n).1 = some p → p.ID ≠ 0) ∧
    ((contractProject.getLoop Merge projectID n c.blocks Project.fresh).ID = 0 →
      (contractProject.get Merge c projectID n).1 = none ∧
      (contractProject.get Merge c projectID n).2 ≠ none) ∧
    ((contractProject.getLoop Merge projectID n c.blocks Project.fresh).ID ≠ 0 →
      (contractProject.get Merge c projectID n) =
        (some (contractProject.getLoop Merge projectID n c.blocks Project.fresh), none)) ∧
    ((∀ d ∈ c.blocks, d.BlockNumber ≤ n → d.Projects projectID = none) →
      (contractProject.get Merge c projectID n).1 = none ∧
      (contractProject.get Merge c projectID n).2 ≠ none) := by
  have hzero : (contractProject.getLoop Merge projectID n c.blocks Project.fresh).ID = 0 →
      (contractProject.get Merge c projectID n).1 = none ∧
      (contractProject.get Merge c projectID n).2 ≠ none := by
    intro h
    simp [contractProject.get, h]
  refine ⟨?_, hzero, ?_, ?_⟩
  · intro p hp
    by_cases h0 : (contractProject.getLoop Merge projectID n c.blocks Project.fresh).ID = 0
    · rw [(hzero h0).1] at hp
      cases hp
    · simp only [contractProject.get, h0, if_false, Option.some.injEq] at hp
      rw [← hp]
      exact h0
  · intro h
    simp [contractProject.get, h]
  · intro h
    apply hzero
    rw [contractProject.getLoop_of_absent Merge projectID n c.blocks Project.fresh h]
    rfl

/-! ## Sorting -/

/-- Inserting an element keeps the elements. -/
theorem insertionStep_perm {α : Type} (less : α → α → Bool) (x : α) (l : List α) :
    (insertionStep less x l).Perm (x :: l) := by
  induction l with
  | nil => exact List.Perm.refl _
  | cons y ys ih =>
    unfold insertionStep
    split_ifs
    · exact (ih.cons y).trans (List.Perm.swap x y ys)
    · exact List.Perm.refl _

/-- The insertion loop keeps the elements. -/
theorem foldl_insertionStep_perm {α : Type} (less : α → α → Bool) (l acc : List α) :
    (l.foldl (fun sortedRev x => insertionStep less x sortedRev) acc).Perm (l ++ acc) := by
  induction l generalizing acc with
  | nil => exact List.Perm.refl _
  | cons x xs ih =>
    simp only [List.foldl_cons, List.cons_append]
    refine (ih _).trans ?_
    refine (List.Perm.append_left xs (insertionStep_perm less x acc)).trans ?_
    exact List.perm_middle

/-- The result of `sortSlice` is a permutation of its input. -/
theorem sortSlice_perm {α : Type} (less : α → α → Bool) (l : List α) :
    (sortSlice less l).Perm l := by
  unfold sortSlice
  refine (List.reverse_perm _).trans ?_
  simpa using foldl_insertionStep_perm less l []

/-- Inserting an element keeps the sorted part sorted. -/
theorem insertionStep_sorted {α κ : Type} [LinearOrder κ] (less : α → α → Bool) (key : α → κ)
    (hless : ∀ a b, less a b = true ↔ key a < key b) (x : α) (l : List α)
    (h : l.Pairwise (fun a b => key b ≤ key a)) :
    (insertionStep less x l).Pairwise (fun a b => key b ≤ key a) := by
  induction l with
  | nil => simp [insertionStep]
  | cons y ys ih =>
    rw [List.pairwise_cons] at h
    unfold insertionStep
    split_ifs with hxy
    · rw [List.pairwise_cons]
      refine ⟨?_, ih h.2⟩
      intro z hz
      rcases List.mem_cons.1 ((insertionStep_perm less x ys).subset hz) with rfl | hz
      · exact le_of_lt ((hless _ _).1 hxy)
      · exact h.1 z hz
    · have hyx : key y ≤ key x := by
        have : ¬ key x < key y := fun hlt => hxy ((hless _ _).2 hlt)
        exact not_lt.1 this
      rw [List.pairwise_cons]
      refine ⟨?_, List.pairwise_cons.2 h⟩
      intro z hz
      rcases List.mem_cons.1 hz with rfl | hz
      · exact hyx
      · exact le_trans (h.1 z hz) hyx

/-- The insertion loop keeps the sorted part sorted. -/
theorem foldl_insertionStep_sorted {α κ : Type} [LinearOrder κ] (less : α → α → Bool)
    (key : α → κ) (hless : ∀ a b, less a b = true ↔ key a < key b) (l acc : List α)
    (h : acc.Pairwise (fun a b => key b ≤ key a)) :
    (l.foldl (fun sortedRev x => insertionStep less x sortedRev) acc).Pairwise
      (fun a b => key b ≤ key a) := by
  induction l generalizing acc with
  | nil => exact h
  | cons x xs ih =>
    simp only [List.foldl_cons]
    exact ih _ (insertionStep_sorted less key hless x acc h)

/-- The result of `sortSlice` is sorted by the key that `less` compares. -/
theorem sortSlice_sorted {α κ : Type} [LinearOrder κ] (less : α → α → Bool) (key : α → κ)
    (hless : ∀ a b, less a b = true ↔ key a < key b) (l : List α) :
    (sortSlice less l).Pairwise (fun a b => key a ≤ key b) := by
  unfold sortSlice
  rw [List.pairwise_reverse]
  exact foldl_insertionStep_sorted less key hless l [] List.Pairwise.nil

/-- A sorted list without repeated keys is strictly sorted. -/
theorem strict_of_sorted_nodup {α κ : Type} [LinearOrder κ] (key : α → κ) (l : List α)
    (hs : l.Pairwise (fun a b => key a ≤ key b)) (hn : (l.map key).Nodup) :
    l.Pairwise (fun a b => key a < key b) := by
  have hne : l.Pairwise (fun a b => key a ≠ key b) := by
    rw [List.Nodup, List.pairwise_map] at hn
    exact hn
  exact (hs.and hne).imp (fun h => lt_of_le_of_ne h.1 h.2)

/-- Two strictly sorted lists with the same elements are equal. -/
theorem eq_of_perm_of_strict {α κ : Type} [LinearOrder κ] (key : α → κ) (l1 l2 : List α)
    (hp : l1.Perm l2) (h1 : l1.Pairwise (fun a b => key a < key b))
    (h2 : l2.Pairwise (fun a b => key a < key b)) : l1 = l2 := by
  haveI : IsAntisymm α (fun a b => key a < key b) :=
    ⟨fun a b hab hba => absurd hba (lt_asymm hab)⟩
  exact List.eq_of_perm_of_sorted hp h1 h2

/-- Without repeated keys the result of `sortSlice` is strictly sorted. -/
theorem sortSlice_strict {α κ : Type} [LinearOrder κ] (less : α → α → Bool) (key : α → κ)
    (hless : ∀ a b, less a b = true ↔ key a < key b) (l : List α)
    (hn : (l.map key).Nodup) :
    (sortSlice less l).Pairwise (fun a b => key a < key b) := by
  apply strict_of_sorted_nodup key _ (sortSlice_sorted less key hless l)
  exact ((sortSlice_perm less l).map key).nodup_iff.2 hn

/-- Without repeated keys `sortSlice` does not depend on the order of its input. -/
theorem sortSlice_eq_of_perm {α κ : Type} [LinearOrder κ] (less : α → α → Bool) (key : α → κ)
    (hless : ∀ a b, less a b = true ↔ key a < key b) (l1 l2 : List α)
    (hp : l1.Perm l2) (hn : (l1.map key).Nodup) :
    sortSlice less l1 = sortSlice less l2 := by
  have hn2 : (l2.map key).Nodup := (hp.map key).nodup_iff.1 hn
  apply eq_of_perm_of_strict key
  · exact (sortSlice_perm less l1).trans (hp.trans (sortSlice_perm less l2).symm)
  · exact sortSlice_strict less key hless l1 hn
  · exact sortSlice_strict less key hless l2 hn2

/-- Without repeated keys, filtering before sorting is filtering after sorting. -/
theorem sortSlice_filter {α κ : Type} [LinearOrder κ] (less : α → α → Bool) (key : α → κ)
    (hless : ∀ a b, less a b = true ↔ key a < key b) (p : α → Bool) (l : List α)
    (hn : (l.map key).Nodup) :
    sortSlice less (l.filter p) = (sortSlice less l).filter p := by
  have hsub : ((l.filter p).map key).Nodup :=
    hn.sublist ((List.filter_sublist l).map key)
  apply eq_of_perm_of_strict key
  · exact (sortSlice_perm less _).trans ((sortSlice_perm less l).symm.filter p)
  · exact sortSlice_strict less key hless _ hsub
  · exact (sortSlice_strict less key hless l hn).sublist (List.filter_sublist _)

/-- On a strictly sorted list `sortSlice` changes nothing. -/
theorem sortSlice_of_strict {α κ : Type} [LinearOrder κ] (less : α → α → Bool) (key : α → κ)
    (hless : ∀ a b, less a b = true ↔ key a < key b) (l : List α)
    (hs : l.Pairwise (fun a b => key a < key b)) : sortSlice less l = l := by
  have hn : (l.map key).Nodup := by
    rw [List.Nodup, List.pairwise_map]
    exact hs.imp (fun h => ne_of_lt h)
  exact eq_of_perm_of_strict key _ _ (sortSlice_perm less l)
    (sortSlice_strict less key hless l hn) hs

/-- The closure `lessLog` is the strict order of the keys `logKey`. -/
theorem lessLog_iff (a b : Log) : lessLog a b = true ↔ logKey a < logKey b := by
  unfold lessLog logKey
  rw [Prod.Lex.lt_iff]
  simp only [ne_eq, ite_not]
  split_ifs with h
  · simp [h]
  · simp only [decide_eq_true_eq]
    constructor
    · intro hlt; exact Or.inl hlt
    · rintro (hlt | ⟨heq, _⟩)
      · exact hlt
      · exact absurd heq h

/-! ## Processing prover logs -/

/-- The `switch` fails exactly on a log whose decoder fails. -/
theorem processProverLog_isSome (inst : ProverInstance) (ps : BlockProver) (l : Log) :
    (processProverLog inst ps l).isSome = parses inst l := by
  unfold processProverLog parses
  cases l.Topics0
  · cases h : inst.ParseOperatorSet l <;> simp
  · cases h : inst.ParseNodeTypeUpdated l <;> simp
  · cases h : inst.ParseProverPaused l <;> simp
  · cases h : inst.ParseProverResumed l <;> simp
  · simp

/-- The `switch` leaves the block number of the diff alone. -/
theorem processProverLog_BlockNumber (inst : ProverInstance) (ps ps2 : BlockProver) (l : Log)
    (h : processProverLog inst ps l = some ps2) : ps2.BlockNumber = ps.BlockNumber := by
  unfold processProverLog at h
  cases ht : l.Topics0 <;> simp only [ht] at h
  · cases hp : inst.ParseOperatorSet l <;> simp only [hp] at h
    · cases h
    · cases h; rfl
  · cases hp : inst.ParseNodeTypeUpdated l <;> simp only [hp] at h
    · cases h
    · cases h; rfl
  · cases hp : inst.ParseProverPaused l <;> simp only [hp] at h
    · cases h
    · cases h; rfl
  · cases hp : inst.ParseProverResumed l <;> simp only [hp] at h
    · cases h
    · cases h; rfl
  · cases h; rfl

/-- A log with an unrecognised topic leaves the diff of its block as it is. -/
theorem processProverLog_of_not_recognised (inst : ProverInstance) (ps : BlockProver)
    (l : Log) (h : recognised l = false) : processProverLog inst ps l = some ps := by
  unfold recognised at h
  unfold processProverLog
  cases ht : l.Topics0 <;> simp_all

/-- A log with an unrecognised topic is never a decoding failure. -/
theorem parses_of_not_recognised (inst : ProverInstance) (l : Log)
    (h : recognised l = false) : parses inst l = true := by
  rw [← processProverLog_isSome inst BlockProver.empty l,
    processProverLog_of_not_recognised inst _ l h]
  rfl

/-- The loop over the logs fails exactly when some log fails to decode. -/
theorem processProverLogsLoop_isSome (inst : ProverInstance) (logs : List Log) (m : PsMap) :
    (processProverLogsLoop inst logs m).isSome = true ↔ ∀ l ∈ logs, parses inst l = true := by
  induction logs generalizing m with
  | nil => simp [processProverLogsLoop]
  | cons l rest ih =>
    unfold processProverLogsLoop
    have hl := processProverLog_isSome inst (m.getOrNew l.BlockNumber) l
    cases hp : processProverLog inst (m.getOrNew l.BlockNumber) l with
    | none =>
      rw [hp] at hl
      simp only [Option.isSome_none] at hl
      simp [← hl]
    | some ps =>
      rw [hp] at hl
      simp only [Option.isSome_some] at hl
      simp only [ih, List.mem_cons, forall_eq_or_imp, ← hl, true_and]

/-- The result of `processProverLogs` on an empty batch. -/
theorem processProverLogs_nil (inst : ProverInstance) :
    processProverLogs inst [] = (true, []) := by
  simp [processProverLogs]

/-- The result of `processProverLogs` when the loop hits a decoding error. -/
theorem processProverLogs_of_none (inst : ProverInstance) (logs : List Log) (hne : logs ≠ [])
    (h : processProverLogsLoop inst (sortSlice lessLog logs) PsMap.empty = none) :
    processProverLogs inst logs = (false, []) := by
  simp [processProverLogs, hne, h]

/-- The result of `processProverLogs` when the loop completes. -/
theorem processProverLogs_of_some (inst : ProverInstance) (logs : List Log) (hne : logs ≠ [])
    (m : PsMap) (h : processProverLogsLoop inst (sortSlice lessLog logs) PsMap.empty = some m) :
    processProverLogs inst logs = (true, sortSlice lessBlockProver m.values) := by
  simp [processProverLogs, hne, h]

/-- The returned `bool` of `processProverLogs`: whether every log decodes. -/
theorem processProverLogs_fst (inst : ProverInstance) (logs : List Log) :
    (processProverLogs inst logs).1 = true ↔ ∀ l ∈ logs, parses inst l = true := by
  by_cases hne : logs = []
  · subst hne
    simp [processProverLogs_nil]
  · have hmem : (∀ l ∈ sortSlice lessLog logs, parses inst l = true) ↔
        ∀ l ∈ logs, parses inst l = true := by
      constructor
      · intro h l hl
        exact h l ((sortSlice_perm lessLog logs).mem_iff.2 hl)
      · intro h l hl
        exact h l ((sortSlice_perm lessLog logs).mem_iff.1 hl)
    rw [← hmem, ← processProverLogsLoop_isSome inst _ PsMap.empty]
    cases hl : processProverLogsLoop inst (sortSlice lessLog logs) PsMap.empty with
    | none => simp [processProverLogs_of_none inst logs hne hl]
    | some m => simp [processProverLogs_of_some inst logs hne m hl]

/-- When `processProverLogs` returns `false` it has sent nothing. -/
theorem processProverLogs_snd_of_false (inst : ProverInstance) (logs : List Log)
    (h : (processProverLogs inst logs).1 = false) : (processProverLogs inst logs).2 = [] := by
  by_cases hne : logs = []
  · subst hne
    simp [processProverLogs_nil]
  · cases hl : processProverLogsLoop inst (sortSlice lessLog logs) PsMap.empty with
    | none => simp [processProverLogs_of_none inst logs hne hl]
    | some m =>
      rw [processProverLogs_of_some inst logs hne m hl] at h
      simp at h

/-- Sorting two elements: they are swapped exactly when the second is less than the
first. -/
theorem sortSlice_pair {α : Type} (less : α → α → Bool) (a b : α) :
    sortSlice less [a, b] = if less b a then [b, a] else [a, b] := by
  simp only [sortSlice, List.foldl_cons, List.foldl_nil, insertionStep]
  split_ifs <;> rfl

/-- The loop on two logs of one block, starting from an empty `psMap`: the second log
acts on the diff the first one left. -/
theorem processProverLogsLoop_pair (inst : ProverInstance) (l1 l2 : Log)
    (ps1 ps2 : BlockProver) (hb : l1.BlockNumber = l2.BlockNumber)
    (h1 : processProverLog inst { BlockNumber := l1.BlockNumber, Provers := fun _ => none } l1
      = some ps1)
    (h2 : processProverLog inst ps1 l2 = some ps2) :
    ∃ m, processProverLogsLoop inst [l1, l2] PsMap.empty = some m ∧ m.values = [ps2] := by
  refine ⟨(PsMap.empty.store l1.BlockNumber ps1).store l2.BlockNumber ps2, ?_, ?_⟩
  · have hg1 : PsMap.empty.getOrNew l1.BlockNumber =
        { BlockNumber := l1.BlockNumber, Provers := fun _ => none } := rfl
    have hg2 : (PsMap.empty.store l1.BlockNumber ps1).getOrNew l2.BlockNumber = ps1 := by
      simp [PsMap.getOrNew, PsMap.store, hb]
    simp only [processProverLogsLoop]
    rw [hg1, h1]
    simp only []
    rw [hg2, h2]
  · simp [PsMap.values, PsMap.store, PsMap.empty, hb]

/-- The result of `processProverLogs` on two logs of one block that are supplied in
either order and of which `l1` sorts first. -/
theorem processProverLogs_pair (inst : ProverInstance) (l1 l2 : Log)
    (ps1 ps2 : BlockProver) (hb : l1.BlockNumber = l2.BlockNumber)
    (hlt : l1.TxIndex < l2.TxIndex)
    (h1 : processProverLog inst { BlockNumber := l1.BlockNumber, Provers := fun _ => none } l1
      = some ps1)
    (h2 : processProverLog inst ps1 l2 = some ps2) :
    processProverLogs inst [l1, l2] = (true, [ps2]) ∧
    processProverLogs inst [l2, l1] = (true, [ps2]) := by
  obtain ⟨m, hm, hv⟩ := processProverLogsLoop_pair inst l1 l2 ps1 ps2 hb h1 h2
  have hl12 : lessLog l1 l2 = true := by simp [lessLog, hb, hlt]
  have hl21 : lessLog l2 l1 = false := by
    simp only [lessLog, hb, ne_eq, not_true_eq_false, if_false, decide_eq_false_iff_not]
    omega
  have hs1 : sortSlice lessLog [l1, l2] = [l1, l2] := by
    rw [sortSlice_pair, hl21]; rfl
  have hs2 : sortSlice lessLog [l2, l1] = [l1, l2] := by
    rw [sortSlice_pair, hl12]; rfl
  constructor
  · rw [processProverLogs_of_some inst [l1, l2] (by simp) m (by rw [hs1]; exact hm), hv]
    rfl
  · rw [processProverLogs_of_some inst [l2, l1] (by simp) m (by rw [hs2]; exact hm), hv]
    rfl

/-- C15: for a `ProverPaused(id)` log and a `ProverResumed(id)` log in the same block,
`processProverLogs` folds them in ascending `TxIndex` order whatever order they are
supplied in: when the pause has the smaller `TxIndex` (0 and 1) the one diff emitted for
the block has `Provers[id].Paused = false`, and with the indexes swapped it has
`Paused = true`. -/
theorem pause_resume_same_block (inst : ProverInstance) (lp lr : Log) (id : Nat)
    (hp : lp.Topics0 = .proverPaused) (hr : lr.Topics0 = .proverResumed)
    (hb : lp.BlockNumber = lr.BlockNumber)
    (hpp : inst.ParseProverPaused lp = some id) (hpr : inst.ParseProverResumed lr = some id) :
    (lp.TxIndex < lr.TxIndex →
      ∃ d, processProverLogs inst [lp, lr] = (true, [d]) ∧
        processProverLogs inst [lr, lp] = (true, [d]) ∧
        d.BlockNumber = lp.BlockNumber ∧
        (d.Provers id).map Prover.Paused = some (some false)) ∧
    (lr.TxIndex < lp.TxIndex →
      ∃ d, processProverLogs inst [lp, lr] = (true, [d]) ∧
        processProverLogs inst [lr, lp] = (true, [d]) ∧
        d.BlockNumber = lp.BlockNumber ∧
        (d.Provers id).map Prover.Paused = some (some true)) := by
  have hP : ∀ ps, processProverLog inst ps lp =
      some (ps.setProver id { proverOrNew ps id with Paused := some true }) := by
    intro ps
    simp only [processProverLog, hp, hpp]
  have hR : ∀ ps, processProverLog inst ps lr =
      some (ps.setProver id { proverOrNew ps id with Paused := some false }) := by
    intro ps
    simp only [processProverLog, hr, hpr]
  constructor
  · intro hlt
    obtain ⟨e1, e2⟩ := processProverLogs_pair inst lp lr _ _ hb hlt (hP _) (hR _)
    refine ⟨_, e1, e2, rfl, ?_⟩
    simp [BlockProver.setProver]
  · intro hlt
    obtain ⟨e1, e2⟩ := processProverLogs_pair inst lr lp _ _ hb.symm hlt (hR _) (hP _)
    refine ⟨_, e2, e1, hb.symm, ?_⟩
    simp [BlockProver.setProver]

/-- C15 at block 200 and prover 5, pause then resume (`TxIndex` 0 and 1) and resume
then pause. -/
theorem pause_resume_same_block_witness :
    (∃ d, processProverLogs exampleInstance [pausedLog 200 0 5, resumedLog 200 1 5]
        = (true, [d]) ∧
      processProverLogs exampleInstance [resumedLog 200 1 5, pausedLog 200 0 5] = (true, [d]) ∧
      d.BlockNumber = 200 ∧ (d.Provers 5).map Prover.Paused = some (some false)) ∧
    (∃ d, processProverLogs exampleInstance [pausedLog 200 1 5, resumedLog 200 0 5]
        = (true, [d]) ∧
      processProverLogs exampleInstance [resumedLog 200 0 5, pausedLog 200 1 5] = (true, [d]) ∧
      d.BlockNumber = 200 ∧ (d.Provers 5).map Prover.Paused = some (some true)) :=
  ⟨(pause_resume_same_block exampleInstance (pausedLog 200 0 5) (resumedLog 200 1 5) 5
      rfl rfl rfl rfl rfl).1 (by decide),
   (pause_resume_same_block exampleInstance (pausedLog 200 1 5) (resumedLog 200 0 5) 5
      rfl rfl rfl rfl rfl).2 (by decide)⟩


/-- C16: `processProverLogs` is all-or-nothing: it returns `true` iff every log with a
recognised topic in the batch decodes; when it returns `false` it has sent no diff on
the channel; and an iteration of `watchProver` whose log query succeeded sets
`queriedBlockNumber` to the end of the queried range iff `processProverLogs` returned
`true`, leaving its state unchanged otherwise. -/
theorem processProverLogs_all_or_nothing (inst : ProverInstance) (logs : List Log) :
    ((processProverLogs inst logs).1 = true ↔
      ∀ l ∈ logs, recognised l = true → parses inst l = true) ∧
    ((processProverLogs inst logs).1 = false → (processProverLogs inst logs).2 = []) ∧
    (∀ (step latestBlockNumber : Nat) (FilterLogs : Nat → Nat → Except String (List Log))
        (s : ProverWatchState),
      s.queriedBlockNumber + 1 < 2 ^ 64 →
      s.queriedBlockNumber + 1 ≤ watchProverTo step latestBlockNumber s.queriedBlockNumber →
      FilterLogs (s.queriedBlockNumber + 1)
        (watchProverTo step latestBlockNumber s.queriedBlockNumber) = .ok logs →
      ((watchProverTick inst step (.ok latestBlockNumber) FilterLogs s).queriedBlockNumber =
          watchProverTo step latestBlockNumber s.queriedBlockNumber ↔
        (processProverLogs inst logs).1 = true) ∧
      ((processProverLogs inst logs).1 = false →
        watchProverTick inst step (.ok latestBlockNumber) FilterLogs s = s)) := by
  refine ⟨?_, processProverLogs_snd_of_false inst logs, ?_⟩
  · rw [processProverLogs_fst]
    constructor
    · intro h l hl _
      exact h l hl
    · intro h l hl
      by_cases hr : recognised l = true
      · exact h l hl hr
      · exact parses_of_not_recognised inst l (by simpa using hr)
  · intro step latestBlockNumber FilterLogs s hq hle hf
    have hmod : (s.queriedBlockNumber + 1) % 2 ^ 64 = s.queriedBlockNumber + 1 :=
      Nat.mod_eq_of_lt hq
    have hto : watchProverTo step latestBlockNumber s.queriedBlockNumber =
        (if (s.queriedBlockNumber + 1 + step) % 2 ^ 64 > latestBlockNumber
          then latestBlockNumber else (s.queriedBlockNumber + 1 + step) % 2 ^ 64) := by
      simp only [watchProverTo, hmod]
    rw [hto] at hle hf ⊢
    have hnot : ¬ (s.queriedBlockNumber + 1 >
        (if (s.queriedBlockNumber + 1 + step) % 2 ^ 64 > latestBlockNumber
          then latestBlockNumber else (s.queriedBlockNumber + 1 + step) % 2 ^ 64)) := by
      omega
    simp only [watchProverTick, hmod, hnot, if_false, hf]
    cases hb : (processProverLogs inst logs).1 with
    | true => simp
    | false =>
      have h2 := processProverLogs_snd_of_false inst logs hb
      simp only [h2, List.append_nil, Bool.false_eq_true, if_false, iff_false, true_implies,
        and_true]
      omega

/-! ## The watch loop of contract.go -/

/-- What the calls of `addBlockProject` made by the project step change: the diffs are
appended to the project history and to the notified diffs, nothing else. -/
theorem foldl_addBlockProject {PJ PV : Type} (adds : List PJ) (s : WatchState PJ PV) :
    adds.foldl addBlockProject s =
      { s with blockProjects := s.blockProjects ++ adds,
               projectNotified := s.projectNotified ++ adds } := by
  induction adds generalizing s with
  | nil => simp
  | cons a rest ih =>
    simp only [List.foldl_cons, ih, addBlockProject, List.append_assoc, List.singleton_append]

/-- C17: in an iteration of `Contract.watch` (with `queriedBlockNumber + 1` below
`2 ^ 64`) the engine queries exactly the block `queriedBlockNumber + 1`;
`queriedBlockNumber` becomes that block iff the log query, the project step and the
prover step all succeed, and the block is then sent as chain head; otherwise
`queriedBlockNumber` is unchanged and no chain-head notification is sent, so the next
iteration queries the same block. -/
theorem watchTick_spec {PJ PV : Type} (deps : WatchDeps PJ PV) (s : WatchState PJ PV)
    (hq : s.queriedBlockNumber + 1 < 2 ^ 64) :
    (watchTick deps s).queried =
      s.queried ++ [(s.queriedBlockNumber + 1, s.queriedBlockNumber + 1)] ∧
    ((watchTick deps s).queriedBlockNumber = s.queriedBlockNumber + 1 ↔
      ∃ logs, deps.FilterLogs (s.queriedBlockNumber + 1) (s.queriedBlockNumber + 1) = .ok logs ∧
        (deps.processProjectLogs (watchBatch (s.queriedBlockNumber + 1) logs)).err = none ∧
        (deps.processProverLogs (watchBatch (s.queriedBlockNumber + 1) logs)).err = none) ∧
    ((watchTick deps s).queriedBlockNumber = s.queriedBlockNumber + 1 →
      (watchTick deps s).chainHeadNotified =
        s.chainHeadNotified ++ [s.queriedBlockNumber + 1]) ∧
    ((watchTick deps s).queriedBlockNumber ≠ s.queriedBlockNumber + 1 →
      (watchTick deps s).queriedBlockNumber = s.queriedBlockNumber ∧
      (watchTick deps s).chainHeadNotified = s.chainHeadNotified) := by
  have hmod : (s.queriedBlockNumber + 1) % 2 ^ 64 = s.queriedBlockNumber + 1 :=
    Nat.mod_eq_of_lt hq
  unfold watchTick
  simp only [hmod, foldl_addBlockProject]
  cases hf : deps.FilterLogs (s.queriedBlockNumber + 1) (s.queriedBlockNumber + 1) with
  | error e => simp
  | ok logs =>
    simp only []
    cases hpj : (deps.processProjectLogs (watchBatch (s.queriedBlockNumber + 1) logs)).err with
    | some e => simp [hpj]
    | none =>
      simp only []
      cases hpv : (deps.processProverLogs (watchBatch (s.queriedBlockNumber + 1) logs)).err with
      | some e => simp [hpj, hpv]
      | none => simp [hpj, hpv]

/-- C17 at `queriedBlockNumber = 7` with a prover log that fails to decode: block 8 is
queried, `queriedBlockNumber` stays 7 and no chain head is sent. -/
theorem watchTick_spec_witness :
    (watchTick exampleWatchDeps exampleWatchState).queried = [(8, 8)] ∧
    (watchTick exampleWatchDeps exampleWatchState).queriedBlockNumber = 7 ∧
    (watchTick exampleWatchDeps exampleWatchState).chainHeadNotified = [] :=
  have h := watchTick_spec exampleWatchDeps exampleWatchState (by decide)
  ⟨h.1, (h.2.2.2 (by decide)).1, (h.2.2.2 (by decide)).2⟩

/-- C18 at an iteration for block 8 whose batch holds a project event and an
`OperatorSet` log that fails to decode: the project diff of block 8 is added to the
project history and notified, no prover diff is added, `queriedBlockNumber` stays 7, and
the retry in the next iteration adds the project diff of block 8 a second time. -/
theorem watchTick_partial_projection :
    (watchBatch 8 [otherLog 8 0,
        { Topics0 := .operatorSet, BlockNumber := 8, TxIndex := 1, Data := [] }]).any
      (fun l => !parses exampleInstance l) = true ∧
    (watchTick exampleWatchDeps exampleWatchState).blockProjects = [8] ∧
    (watchTick exampleWatchDeps exampleWatchState).projectNotified = [8] ∧
    (watchTick exampleWatchDeps exampleWatchState).blockProvers.length = 0 ∧
    (watchTick exampleWatchDeps exampleWatchState).queriedBlockNumber = 7 ∧
    (watchTick exampleWatchDeps (watchTick exampleWatchDeps exampleWatchState)).blockProjects
      = [8, 8] := by
  refine ⟨by decide, by decide, by decide, by decide, by decide, by decide⟩

/-! ## Order of the batch -/

/-- C20, amended: for every batch of logs whose `(BlockNumber, TxIndex)` pairs are
pairwise distinct and every permutation of it, `processProverLogs` returns the same
`bool` and emits the same sequence of diffs. -/
theorem processProverLogs_perm_of_distinct_keys (inst : ProverInstance) (logs perm : List Log)
    (hp : perm.Perm logs) (hn : (logs.map logKey).Nodup) :
    processProverLogs inst perm = processProverLogs inst logs := by
  have hs : sortSlice lessLog perm = sortSlice lessLog logs :=
    (sortSlice_eq_of_perm lessLog logKey lessLog_iff logs perm hp.symm hn).symm
  unfold processProverLogs
  rw [hp.length_eq, hs]

/-- C20, amended, at a pause (`TxIndex` 0) and a resume (`TxIndex` 1) of prover 5 in
block 200, in both orders. -/
theorem processProverLogs_perm_of_distinct_keys_witness :
    processProverLogs exampleInstance [resumedLog 200 1 5, pausedLog 200 0 5] =
      processProverLogs exampleInstance [pausedLog 200 0 5, resumedLog 200 1 5] :=
  processProverLogs_perm_of_distinct_keys exampleInstance
    [pausedLog 200 0 5, resumedLog 200 1 5] [resumedLog 200 1 5, pausedLog 200 0 5]
    (List.Perm.swap _ _ _) (by decide)

/-- C20 fails for two logs of one transaction: a pause and a resume of prover 5 with
the same `(BlockNumber, TxIndex) = (200, 0)` are folded in the order they are supplied
in, so the two orders of the batch give different diffs. -/
theorem same_transaction_counterexample :
    [resumedLog 200 0 5, pausedLog 200 0 5].Perm [pausedLog 200 0 5, resumedLog 200 0 5] ∧
    processProverLogs exampleInstance [resumedLog 200 0 5, pausedLog 200 0 5] ≠
      processProverLogs exampleInstance [pausedLog 200 0 5, resumedLog 200 0 5] := by
  refine ⟨List.Perm.swap _ _ _, ?_⟩
  intro h
  have := congrArg (fun r => r.2.map (fun d => (d.Provers 5).map Prover.Paused)) h
  revert this
  decide

/-! ## Logs with an unrecognised topic -/

/-- The closure `lessBlockProver` is the strict order of the block numbers. -/
theorem lessBlockProver_iff (a b : BlockProver) :
    lessBlockProver a b = true ↔ a.BlockNumber < b.BlockNumber := by
  simp [lessBlockProver]

/-- The empty `psMap` is well formed. -/
theorem PsMap.Valid_empty : PsMap.empty.Valid := by
  refine ⟨List.nodup_nil, ?_, ?_⟩
  · intro b; simp [PsMap.empty]
  · intro b ps h; simp [PsMap.empty] at h

/-- Storing a diff under its own block number keeps a `psMap` well formed. -/
theorem PsMap.Valid_store (m : PsMap) (k : Nat) (ps : BlockProver) (hm : m.Valid)
    (hk : ps.BlockNumber = k) : (m.store k ps).Valid := by
  obtain ⟨hn, hmem, hbn⟩ := hm
  refine ⟨?_, ?_, ?_⟩
  · simp only [PsMap.store]
    split_ifs with h
    · exact hn
    · rw [List.nodup_append]
      refine ⟨hn, List.nodup_singleton k, ?_⟩
      intro a ha hb
      simp only [List.mem_singleton] at hb
      subst hb
      exact h ha
  · intro b
    simp only [PsMap.store]
    by_cases hb : b = k
    · subst hb
      simp only [if_true, Option.isSome_some, iff_true]
      split_ifs with h
      · exact h
      · simp
    · have := hmem b
      simp only [hb, if_false]
      split_ifs with h
      · exact this
      · simp [hb, this]
  · intro b ps2 h
    simp only [PsMap.store] at h
    by_cases hb : b = k
    · simp only [hb, if_true, Option.some.injEq] at h
      rw [← h, hk, hb]
    · simp only [hb, if_false] at h
      exact hbn b ps2 h

/-- The diff a log starts from carries the block number of the log. -/
theorem PsMap.getOrNew_BlockNumber (m : PsMap) (hm : m.Valid) (b : Nat) :
    (m.getOrNew b).BlockNumber = b := by
  unfold PsMap.getOrNew
  cases h : m.get b with
  | none => rfl
  | some ps => exact hm.2.2 b ps h

/-- The loop keeps the `psMap` well formed. -/
theorem processProverLogsLoop_Valid (inst : ProverInstance) (logs : List Log) (m m2 : PsMap)
    (hm : m.Valid) (h : processProverLogsLoop inst logs m = some m2) : m2.Valid := by
  induction logs generalizing m with
  | nil =>
    simp only [processProverLogsLoop, Option.some.injEq] at h
    rw [← h]; exact hm
  | cons l rest ih =>
    unfold processProverLogsLoop at h
    cases hp : processProverLog inst (m.getOrNew l.BlockNumber) l with
    | none => rw [hp] at h; cases h
    | some ps =>
      rw [hp] at h
      simp only [] at h
      apply ih _ _ h
      apply PsMap.Valid_store m _ ps hm
      rw [processProverLog_BlockNumber inst _ ps l hp, PsMap.getOrNew_BlockNumber m hm]

/-- The loop binds the block number of every log it processes and keeps the keys it
started with. -/
theorem processProverLogsLoop_keys (inst : ProverInstance) (logs : List Log) (m m2 : PsMap)
    (h : processProverLogsLoop inst logs m = some m2) :
    (∀ b ∈ m.keys, b ∈ m2.keys) ∧ ∀ l ∈ logs, l.BlockNumber ∈ m2.keys := by
  induction logs generalizing m with
  | nil =>
    simp only [processProverLogsLoop, Option.some.injEq] at h
    rw [← h]; simp
  | cons l rest ih =>
    unfold processProverLogsLoop at h
    cases hp : processProverLog inst (m.getOrNew l.BlockNumber) l with
    | none => rw [hp] at h; cases h
    | some ps =>
      rw [hp] at h
      simp only [] at h
      obtain ⟨h1, h2⟩ := ih _ h
      have hsub : ∀ b ∈ m.keys, b ∈ (m.store l.BlockNumber ps).keys := by
        intro b hb
        simp only [PsMap.store]
        split_ifs
        · exact hb
        · exact List.mem_append_left _ hb
      have hl : l.BlockNumber ∈ (m.store l.BlockNumber ps).keys := by
        simp only [PsMap.store]
        split_ifs with hk
        · exact hk
        · simp
      refine ⟨fun b hb => h1 b (hsub b hb), ?_⟩
      intro l2 hl2
      rcases List.mem_cons.1 hl2 with rfl | hl2
      · exact h1 _ hl
      · exact h2 l2 hl2

/-- The loop binds no other block numbers than those it started with and those of the
logs it processes. -/
theorem processProverLogsLoop_keys_sub (inst : ProverInstance) (logs : List Log)
    (m m2 : PsMap) (h : processProverLogsLoop inst logs m = some m2) :
    ∀ b ∈ m2.keys, b ∈ m.keys ∨ ∃ l ∈ logs, l.BlockNumber = b := by
  induction logs generalizing m with
  | nil =>
    simp only [processProverLogsLoop, Option.some.injEq] at h
    rw [← h]
    intro b hb
    exact Or.inl hb
  | cons l rest ih =>
    unfold processProverLogsLoop at h
    cases hp : processProverLog inst (m.getOrNew l.BlockNumber) l with
    | none => rw [hp] at h; cases h
    | some ps =>
      rw [hp] at h
      simp only [] at h
      intro b hb
      rcases ih _ h b hb with hk | ⟨l2, hl2, hb2⟩
      · simp only [PsMap.store] at hk
        split_ifs at hk with hmem
        · exact Or.inl hk
        · rcases List.mem_append.1 hk with hk | hk
          · exact Or.inl hk
          · simp only [List.mem_singleton] at hk
            exact Or.inr ⟨l, List.mem_cons_self _ _, hk.symm⟩
      · exact Or.inr ⟨l2, List.mem_cons_of_mem _ hl2, hb2⟩

/-- The block numbers of the values of a well-formed `psMap` are its keys. -/
theorem PsMap.values_map_BlockNumber (m : PsMap) (hm : m.Valid) :
    m.values.map BlockProver.BlockNumber = m.keys := by
  obtain ⟨_, hmem, hbn⟩ := hm
  unfold PsMap.values
  have key : ∀ ks : List Nat, (∀ b ∈ ks, (m.get b).isSome = true) →
      (ks.filterMap m.get).map BlockProver.BlockNumber = ks := by
    intro ks
    induction ks with
    | nil => intro _; rfl
    | cons b rest ih =>
      intro h
      have hb := h b (List.mem_cons_self _ _)
      cases hg : m.get b with
      | none => rw [hg] at hb; cases hb
      | some ps =>
        rw [List.filterMap_cons_some hg, List.map_cons, hbn b ps hg,
          ih (fun c hc => h c (List.mem_cons_of_mem _ hc))]
  exact key m.keys (fun b hb => (hmem b).1 hb)

/-- The relation does not depend on how the set of blocks is written. -/
theorem PsMap.Filtered_congr (S S2 : Nat → Bool) (mF mG : PsMap) (h : ∀ j, S j = S2 j)
    (hrel : PsMap.Filtered S mF mG) : PsMap.Filtered S2 mF mG := by
  have : S = S2 := funext h
  rw [← this]; exact hrel

/-- Related maps start a log from the same diff. -/
theorem PsMap.Filtered_getOrNew (S : Nat → Bool) (mF mG : PsMap)
    (hrel : PsMap.Filtered S mF mG) (b : Nat) : mG.getOrNew b = mF.getOrNew b := by
  obtain ⟨h1, _, h3⟩ := hrel
  unfold PsMap.getOrNew
  rw [h1 b]
  cases hS : S b with
  | true => simp
  | false =>
    simp only [Bool.false_eq_true, if_false]
    rcases h3 b hS with h | h <;> rw [h]

/-- A recognised log: both maps store the same diff under the block of the log. -/
theorem PsMap.Filtered_store_both (S : Nat → Bool) (mF mG : PsMap)
    (hrel : PsMap.Filtered S mF mG) (b : Nat) (ps : BlockProver) :
    PsMap.Filtered (fun j => S j || decide (b = j)) (mF.store b ps) (mG.store b ps) := by
  obtain ⟨h1, h2, h3⟩ := hrel
  refine ⟨?_, ?_, ?_⟩
  · intro j
    by_cases hj : j = b
    · subst hj; simp [PsMap.store]
    · have hj2 : ¬ b = j := fun h => hj h.symm
      simp only [PsMap.store, hj, if_false, hj2, decide_False, Bool.or_false]
      exact h1 j
  · intro j hS
    by_cases hj : j = b
    · subst hj; simp [PsMap.store]
    · have hj2 : ¬ b = j := fun h => hj h.symm
      simp only [hj2, decide_False, Bool.or_false] at hS
      simp only [PsMap.store, hj, if_false]
      exact h2 j hS
  · intro j hS
    by_cases hj : j = b
    · subst hj; simp at hS
    · have hj2 : ¬ b = j := fun h => hj h.symm
      simp only [hj2, decide_False, Bool.or_false] at hS
      simp only [PsMap.store, hj, if_false]
      exact h3 j hS

/-- An unrecognised log: the first map stores back the diff it started from, which for
a new block is an empty diff; the second map is not touched. -/
theorem PsMap.Filtered_store_same (S : Nat → Bool) (mF mG : PsMap)
    (hrel : PsMap.Filtered S mF mG) (b : Nat) :
    PsMap.Filtered S (mF.store b (mF.getOrNew b)) mG := by
  obtain ⟨h1, h2, h3⟩ := hrel
  refine ⟨?_, ?_, ?_⟩
  · intro j
    by_cases hj : j = b
    · subst hj
      rw [h1 j]
      cases hS : S j with
      | false => simp
      | true =>
        have := h2 j hS
        cases hg : mF.get j with
        | none => rw [hg] at this; cases this
        | some x => simp [PsMap.store, PsMap.getOrNew, hg]
    · simp only [PsMap.store, hj, if_false]
      exact h1 j
  · intro j hS
    by_cases hj : j = b
    · subst hj; simp [PsMap.store]
    · simp only [PsMap.store, hj, if_false]
      exact h2 j hS
  · intro j hS
    by_cases hj : j = b
    · subst hj
      right
      rcases h3 j hS with h | h <;> simp [PsMap.store, PsMap.getOrNew, h]
    · simp only [PsMap.store, hj, if_false]
      exact h3 j hS

/-- The loop on a batch and the loop on the batch without its unrecognised logs end in
related maps; the blocks on which they agree are those with a recognised log. -/
theorem processProverLogsLoop_filtered (inst : ProverInstance) (logs : List Log)
    (S : Nat → Bool) (mF mG mF2 : PsMap) (hrel : PsMap.Filtered S mF mG)
    (h : processProverLogsLoop inst logs mF = some mF2) :
    ∃ mG2, processProverLogsLoop inst (logs.filter recognised) mG = some mG2 ∧
      PsMap.Filtered (fun j => S j || hasRecognised logs j) mF2 mG2 := by
  induction logs generalizing S mF mG with
  | nil =>
    simp only [processProverLogsLoop, Option.some.injEq] at h
    refine ⟨mG, rfl, ?_⟩
    rw [← h]
    exact PsMap.Filtered_congr S _ mF mG (fun j => by simp [hasRecognised]) hrel
  | cons l rest ih =>
    unfold processProverLogsLoop at h
    cases hp : processProverLog inst (mF.getOrNew l.BlockNumber) l with
    | none => rw [hp] at h; cases h
    | some ps =>
      rw [hp] at h
      simp only [] at h
      by_cases hr : recognised l = true
      · obtain ⟨mG2, hG, hrel2⟩ := ih _ _ _
          (PsMap.Filtered_store_both S mF mG hrel l.BlockNumber ps) h
        refine ⟨mG2, ?_, ?_⟩
        · rw [List.filter_cons_of_pos hr]
          unfold processProverLogsLoop
          rw [PsMap.Filtered_getOrNew S mF mG hrel, hp]
          exact hG
        · refine PsMap.Filtered_congr _ _ mF2 mG2 ?_ hrel2
          intro j
          simp [hasRecognised, hr, Bool.or_assoc]
      · have hr2 : recognised l = false := by simpa using hr
        have hps : ps = mF.getOrNew l.BlockNumber := by
          rw [processProverLog_of_not_recognised inst _ l hr2] at hp
          exact (Option.some.inj hp).symm
        rw [hps] at h
        obtain ⟨mG2, hG, hrel2⟩ := ih _ _ _
          (PsMap.Filtered_store_same S mF mG hrel l.BlockNumber) h
        refine ⟨mG2, ?_, ?_⟩
        · rw [List.filter_cons_of_neg hr]
          exact hG
        · refine PsMap.Filtered_congr _ _ mF2 mG2 ?_ hrel2
          intro j
          simp [hasRecognised, hr2]


/-- Whether a block has a recognised log does not depend on the order of the batch. -/
theorem hasRecognised_perm (l1 l2 : List Log) (hp : l1.Perm l2) (j : Nat) :
    hasRecognised l1 j = hasRecognised l2 j := by
  rw [Bool.eq_iff_iff]
  simp only [hasRecognised, List.any_eq_true]
  constructor
  · rintro ⟨x, hx, h⟩; exact ⟨x, hp.mem_iff.1 hx, h⟩
  · rintro ⟨x, hx, h⟩; exact ⟨x, hp.mem_iff.2 hx, h⟩

/-- Filtering the values of a map by a property of their key is filtering the keys. -/
theorem filterMap_filter_comm (get : Nat → Option BlockProver) (Q : BlockProver → Bool)
    (S : Nat → Bool) (hQ : ∀ b ps, get b = some ps → Q ps = S b) (ks : List Nat) :
    (ks.filterMap get).filter Q = (ks.filter S).filterMap get := by
  induction ks with
  | nil => rfl
  | cons b rest ih =>
    cases hg : get b with
    | none =>
      rw [List.filterMap_cons_none hg, ih]
      cases hS : S b with
      | true => rw [List.filter_cons_of_pos hS, List.filterMap_cons_none hg]
      | false => rw [List.filter_cons_of_neg (by simp [hS])]
    | some ps =>
      rw [List.filterMap_cons_some hg]
      have hq := hQ b ps hg
      cases hS : S b with
      | true =>
        rw [List.filter_cons_of_pos hS, List.filterMap_cons_some hg,
          List.filter_cons_of_pos (by rw [hq, hS]), ih]
      | false =>
        rw [List.filter_cons_of_neg (by rw [hq, hS]; simp),
          List.filter_cons_of_neg (by simp [hS]), ih]

/-- The diffs emitted from the second of two related maps are those emitted from the
first whose block had a recognised log. -/
theorem PsMap.Filtered_values (S : Nat → Bool) (mF mG : PsMap) (hF : mF.Valid)
    (hG : mG.Valid) (hrel : PsMap.Filtered S mF mG) :
    sortSlice lessBlockProver mG.values =
      (sortSlice lessBlockProver mF.values).filter (fun d => S d.BlockNumber) := by
  obtain ⟨h1, h2, _⟩ := hrel
  have hA : mF.values.filter (fun d => S d.BlockNumber) =
      (mF.keys.filter S).filterMap mF.get :=
    filterMap_filter_comm mF.get (fun d => S d.BlockNumber) S
      (fun b ps hg => by simp only [hF.2.2 b ps hg]) mF.keys
  have hB : mG.keys.Perm (mF.keys.filter S) := by
    rw [List.perm_ext_iff_of_nodup hG.1 (hF.1.filter _)]
    intro b
    rw [hG.2.1 b, List.mem_filter, hF.2.1 b, h1 b]
    cases hS : S b <;> simp
  have hC : mG.values = mG.keys.filterMap mF.get := by
    unfold PsMap.values
    apply List.filterMap_congr
    intro b hb
    have hsome := (hG.2.1 b).1 hb
    rw [h1 b] at hsome ⊢
    cases hS : S b with
    | true => simp
    | false => simp [hS] at hsome
  have hperm : mG.values.Perm (mF.values.filter (fun d => S d.BlockNumber)) := by
    rw [hA, hC]
    exact hB.filterMap _
  rw [← sortSlice_filter lessBlockProver BlockProver.BlockNumber lessBlockProver_iff _
    mF.values (by rw [PsMap.values_map_BlockNumber mF hF]; exact hF.1)]
  exact sortSlice_eq_of_perm lessBlockProver BlockProver.BlockNumber lessBlockProver_iff
    mG.values _ hperm (by rw [PsMap.values_map_BlockNumber mG hG]; exact hG.1)

/-- The diff of a block without a recognised log is empty. -/
theorem PsMap.Filtered_empty_diff (S : Nat → Bool) (mF mG : PsMap) (hF : mF.Valid)
    (hrel : PsMap.Filtered S mF mG) (d : BlockProver) (hd : d ∈ mF.values)
    (hS : S d.BlockNumber = false) : d.Provers = fun _ => none := by
  unfold PsMap.values at hd
  rw [List.mem_filterMap] at hd
  obtain ⟨b, _, hg⟩ := hd
  have hb := hF.2.2 b d hg
  rw [hb] at hS
  rcases hrel.2.2 b hS with h | h
  · rw [h] at hg; cases hg
  · rw [h] at hg
    cases hg
    rfl

/-- The returned `bool` does not change when unrecognised logs are removed. -/
theorem processProverLogs_fst_filter (inst : ProverInstance) (logs : List Log) :
    (processProverLogs inst logs).1 = (processProverLogs inst (logs.filter recognised)).1 := by
  rw [Bool.eq_iff_iff, processProverLogs_fst, processProverLogs_fst]
  constructor
  · intro h l hl
    exact h l (List.mem_of_mem_filter hl)
  · intro h l hl
    by_cases hr : recognised l = true
    · exact h l (List.mem_filter.2 ⟨hl, hr⟩)
    · exact parses_of_not_recognised inst l (by simpa using hr)

/-- C19, amended: for every batch whose `(BlockNumber, TxIndex)` pairs are pairwise
distinct, `processProverLogs` returns the same `bool` as for the batch without its
unrecognised logs; the diffs it emits for that smaller batch are the diffs it emits for
the whole batch whose block has a recognised log; every other emitted diff has no prover
entry; when it succeeds it emits a diff for the block of every log of the batch,
recognised or not; the emitted diffs have strictly increasing block numbers, so
there is one diff for a block; and every emitted diff is at the block of some log of the
batch, so nothing is emitted for a block without logs. -/
theorem unrecognised_logs_yield_empty_diffs (inst : ProverInstance) (logs : List Log)
    (hn : (logs.map logKey).Nodup) :
    (processProverLogs inst logs).1 = (processProverLogs inst (logs.filter recognised)).1 ∧
    (processProverLogs inst (logs.filter recognised)).2 =
      (processProverLogs inst logs).2.filter (fun d => hasRecognised logs d.BlockNumber) ∧
    (∀ d ∈ (processProverLogs inst logs).2, hasRecognised logs d.BlockNumber = false →
      d.Provers = fun _ => none) ∧
    ((processProverLogs inst logs).1 = true →
      ∀ l ∈ logs, ∃ d ∈ (processProverLogs inst logs).2, d.BlockNumber = l.BlockNumber) ∧
    (processProverLogs inst logs).2.Pairwise (fun a b => a.BlockNumber < b.BlockNumber) ∧
    (∀ d ∈ (processProverLogs inst logs).2, ∃ l ∈ logs, l.BlockNumber = d.BlockNumber) := by
  refine ⟨processProverLogs_fst_filter inst logs, ?_⟩
  by_cases hne : logs = []
  · subst hne
    simp [processProverLogs_nil]
  cases hl : processProverLogsLoop inst (sortSlice lessLog logs) PsMap.empty with
  | none =>
    have hres := processProverLogs_of_none inst logs hne hl
    have hf : (processProverLogs inst (logs.filter recognised)).1 = false := by
      rw [← processProverLogs_fst_filter, hres]
    rw [processProverLogs_snd_of_false inst _ hf, hres]
    simp
  | some mF =>
    have hres := processProverLogs_of_some inst logs hne mF hl
    have hF : mF.Valid := processProverLogsLoop_Valid inst _ _ mF PsMap.Valid_empty hl
    have hrel0 : PsMap.Filtered (fun _ => false) PsMap.empty PsMap.empty :=
      ⟨fun b => by simp [PsMap.empty], fun b h => by simp at h,
        fun b _ => Or.inl rfl⟩
    obtain ⟨mG, hG, hrel⟩ := processProverLogsLoop_filtered inst _ _ _ _ mF hrel0 hl
    have hrel2 : PsMap.Filtered (fun j => hasRecognised logs j) mF mG :=
      PsMap.Filtered_congr _ _ mF mG
        (fun j => by
          simp only [Bool.false_or]
          exact hasRecognised_perm _ _ (sortSlice_perm lessLog logs) j) hrel
    have hsf : sortSlice lessLog (logs.filter recognised) =
        (sortSlice lessLog logs).filter recognised :=
      sortSlice_filter lessLog logKey lessLog_iff recognised logs hn
    have hGv : mG.Valid := processProverLogsLoop_Valid inst _ _ mG PsMap.Valid_empty hG
    have hfil : (processProverLogs inst (logs.filter recognised)).2 =
        sortSlice lessBlockProver mG.values := by
      by_cases hfe : logs.filter recognised = []
      · have hnil : (sortSlice lessLog logs).filter recognised = [] := by
          rw [← hsf, hfe]; rfl
        rw [hnil] at hG
        simp only [processProverLogsLoop, Option.some.injEq] at hG
        rw [hfe, processProverLogs_nil, ← hG]
        rfl
      · rw [processProverLogs_of_some inst _ hfe mG (by rw [hsf]; exact hG)]
    refine ⟨?_, ?_, ?_, ?_, ?_⟩
    · rw [hfil, hres]
      exact PsMap.Filtered_values _ mF mG hF hGv hrel2
    · intro d hd hS
      rw [hres] at hd
      have hd2 : d ∈ mF.values := (sortSlice_perm lessBlockProver mF.values).mem_iff.1 hd
      exact PsMap.Filtered_empty_diff _ mF mG hF hrel2 d hd2 hS
    · intro _ l hl2
      have hmem : l ∈ sortSlice lessLog logs := (sortSlice_perm lessLog logs).mem_iff.2 hl2
      have hk := (processProverLogsLoop_keys inst _ _ mF hl).2 l hmem
      have hsome := (hF.2.1 _).1 hk
      cases hg : mF.get l.BlockNumber with
      | none => rw [hg] at hsome; cases hsome
      | some d =>
        refine ⟨d, ?_, hF.2.2 _ d hg⟩
        rw [hres]
        apply (sortSlice_perm lessBlockProver mF.values).mem_iff.2
        unfold PsMap.values
        exact List.mem_filterMap.2 ⟨l.BlockNumber, hk, hg⟩
    · rw [hres]
      exact sortSlice_strict lessBlockProver BlockProver.BlockNumber lessBlockProver_iff
        mF.values (by rw [PsMap.values_map_BlockNumber mF hF]; exact hF.1)
    · intro d hd
      rw [hres] at hd
      have hd2 : d ∈ mF.values := (sortSlice_perm lessBlockProver mF.values).mem_iff.1 hd
      unfold PsMap.values at hd2
      obtain ⟨b, hb, hg⟩ := List.mem_filterMap.1 hd2
      have hbn := hF.2.2 b d hg
      rcases processProverLogsLoop_keys_sub inst _ _ mF hl b hb with hk | ⟨l, hl2, hlb⟩
      · simp [PsMap.empty] at hk
      · exact ⟨l, (sortSlice_perm lessLog logs).mem_iff.1 hl2, by rw [hlb, hbn]⟩

/-- C19, amended, at a batch with a `ProverPaused` log in block 9 and an unrecognised
log in block 7. -/
theorem unrecognised_logs_yield_empty_diffs_witness :
    (processProverLogs exampleInstance [pausedLog 9 0 5, otherLog 7 0]).2.filter
        (fun d => hasRecognised [pausedLog 9 0 5, otherLog 7 0] d.BlockNumber) =
      (processProverLogs exampleInstance ([pausedLog 9 0 5, otherLog 7 0].filter recognised)).2 :=
  (unrecognised_logs_yield_empty_diffs exampleInstance [pausedLog 9 0 5, otherLog 7 0]
    (by decide)).2.1.symm

/-- C19 fails at a batch that holds one unrecognised log at block 7: removing the log
leaves the empty batch, for which nothing is emitted, while the batch itself makes
`processProverLogs` emit the (empty) diff of block 7. -/
theorem unrecognised_log_counterexample :
    ([otherLog 7 0].filter recognised = []) ∧
    (processProverLogs exampleInstance [otherLog 7 0]).2.map BlockProver.BlockNumber = [7] ∧
    (processProverLogs exampleInstance ([otherLog 7 0].filter recognised)).2.map
      BlockProver.BlockNumber = [] ∧
    processProverLogs exampleInstance [otherLog 7 0] ≠
      processProverLogs exampleInstance ([otherLog 7 0].filter recognised) := by
  refine ⟨by decide, by decide, by decide, ?_⟩
  intro h
  have := congrArg (fun r => r.2.length) h
  revert this
  decide

/-! ## Listing -/

/-- Without wrap-around the `uint64` subtraction is the difference. -/
theorem uint64Sub_of_le {a b : Nat} (ha : a < 2 ^ 64) (hb : b ≤ a) : uint64Sub a b = a - b := by
  unfold uint64Sub
  have h1 : a % 2 ^ 64 = a := Nat.mod_eq_of_lt ha
  have h2 : b % 2 ^ 64 = b := Nat.mod_eq_of_lt (by omega)
  rw [h1, h2]
  have h3 : a + 2 ^ 64 - b = (a - b) + 2 ^ 64 := by omega
  rw [h3, Nat.add_mod_right]
  exact Nat.mod_eq_of_lt (by omega)

/-- A diff found in the block map is stored under its own block number. -/
theorem listBlockMap_blockNumber {D : Type} (blockNumber : D → Nat) (decoded : List D)
    (n : Nat) (p : D) (h : listBlockMap blockNumber decoded n = some p) : blockNumber p = n := by
  unfold listBlockMap at h
  have key : ∀ (l : List D) (m : Nat → Option D),
      (∀ n p, m n = some p → blockNumber p = n) →
      ∀ n p, l.foldl (fun m p => fun n => if n = blockNumber p then some p else m n) m n
        = some p → blockNumber p = n := by
    intro l
    induction l with
    | nil => intro m hm n p h; exact hm n p h
    | cons q rest ih =>
      intro m hm n p h
      simp only [List.foldl_cons] at h
      refine ih _ ?_ n p h
      intro n2 p2 h2
      by_cases hn : n2 = blockNumber q
      · simp only [hn, if_true, Option.some.injEq] at h2
        rw [← h2, hn]
      · simp only [hn, if_false] at h2
        exact hm n2 p2 h2
  exact key decoded _ (fun n p h => by cases h) n p h

/-- With enough fuel the fill loop ends, having added one diff for every block from its
start up to `maxBlockNumber`, in order. -/
theorem listFillLoop_eq {D : Type} (newDiff : Nat → D) (blockMap : Nat → Option D)
    (maxBlockNumber : Nat) (hmax : maxBlockNumber + 1 < 2 ^ 64) (k n fuel : Nat)
    (hn : n + k = maxBlockNumber + 1) (hfuel : k < fuel) :
    listFillLoop newDiff blockMap maxBlockNumber fuel n =
      some ((List.range' n k).map (fun n =>
        match blockMap n with
        | some p => p
        | none => newDiff n)) := by
  induction k generalizing n fuel with
  | zero =>
    cases fuel with
    | zero => omega
    | succ f =>
      have : ¬ n ≤ maxBlockNumber := by omega
      simp [listFillLoop, this]
  | succ k ih =>
    cases fuel with
    | zero => omega
    | succ f =>
      have hle : n ≤ maxBlockNumber := by omega
      have hmod : (n + 1) % 2 ^ 64 = n + 1 := Nat.mod_eq_of_lt (by omega)
      have := ih (n + 1) f (by omega) (by omega)
      simp only [listFillLoop, hle, if_true, hmod, this, List.range'_succ, List.map_cons]


/-- C21, amended: when `epoch ≤ minSeen` and `maxSeen + 1 < 2 ^ 64` (no `uint64`
wrap-around), the fill of `Contract.list` ends and the diffs it adds to a history have
the block numbers `baseline, baseline + 1, ..., maxSeen` in that order, each once, with
`baseline = minSeen - epoch`: the baseline block contributes the baseline diff built
from the listing, every later block with a decoded diff contributes that diff, and
every other later block contributes an empty diff. -/
theorem list_adds_dense {D : Type} (blockNumber : D → Nat) (newDiff : Nat → D)
    (minBlockDiff : D) (decoded : List D)
    (projectMin projectMax proverMin proverMax epoch fuel : Nat)
    (hnew : ∀ n, blockNumber (newDiff n) = n)
    (hmin : blockNumber minBlockDiff =
      (listRange projectMin projectMax proverMin proverMax epoch).1)
    (hepoch : epoch ≤ min projectMin proverMin)
    (hle : min projectMin proverMin ≤ max projectMax proverMax)
    (hmax : max projectMax proverMax + 1 < 2 ^ 64)
    (hfuel : max projectMax proverMax - (min projectMin proverMin - epoch) < fuel) :
    listRange projectMin projectMax proverMin proverMax epoch =
      (min projectMin proverMin - epoch, max projectMax proverMax) ∧
    listAdds newDiff minBlockDiff (listBlockMap blockNumber decoded)
        (min projectMin proverMin - epoch) (max projectMax proverMax) fuel =
      some (minBlockDiff ::
        (List.range' (min projectMin proverMin - epoch + 1)
          (max projectMax proverMax - (min projectMin proverMin - epoch))).map (fun n =>
            match listBlockMap blockNumber decoded n with
            | some p => p
            | none => newDiff n)) ∧
    ∀ adds, listAdds newDiff minBlockDiff (listBlockMap blockNumber decoded)
        (min projectMin proverMin - epoch) (max projectMax proverMax) fuel = some adds →
      adds.map blockNumber =
        List.range' (min projectMin proverMin - epoch)
          (max projectMax proverMax - (min projectMin proverMin - epoch) + 1) := by
  have hrange : listRange projectMin projectMax proverMin proverMax epoch =
      (min projectMin proverMin - epoch, max projectMax proverMax) := by
    simp only [listRange]
    rw [uint64Sub_of_le (by omega) hepoch]
  have hadds : listAdds newDiff minBlockDiff (listBlockMap blockNumber decoded)
        (min projectMin proverMin - epoch) (max projectMax proverMax) fuel =
      some (minBlockDiff ::
        (List.range' (min projectMin proverMin - epoch + 1)
          (max projectMax proverMax - (min projectMin proverMin - epoch))).map (fun n =>
            match listBlockMap blockNumber decoded n with
            | some p => p
            | none => newDiff n)) := by
    have hmod : (min projectMin proverMin - epoch + 1) % 2 ^ 64 =
        min projectMin proverMin - epoch + 1 := Nat.mod_eq_of_lt (by omega)
    simp only [listAdds, hmod]
    rw [listFillLoop_eq newDiff _ _ hmax
      (max projectMax proverMax - (min projectMin proverMin - epoch))
      (min projectMin proverMin - epoch + 1) fuel (by omega) hfuel]
  refine ⟨hrange, hadds, ?_⟩
  intro adds h
  rw [hadds] at h
  cases h
  rw [hrange] at hmin
  simp only [List.map_cons, List.map_map, hmin, List.range'_succ]
  congr 1
  have : ∀ l : List Nat, l.map (blockNumber ∘ fun n =>
      match listBlockMap blockNumber decoded n with
      | some p => p
      | none => newDiff n) = l := by
    intro l
    induction l with
    | nil => rfl
    | cons a rest ih =>
      rw [List.map_cons, ih]
      congr 1
      simp only [Function.comp]
      cases hm : listBlockMap blockNumber decoded a with
      | none => exact hnew a
      | some p => exact listBlockMap_blockNumber blockNumber decoded a p hm
  exact this _

/-- C21, amended, at a listing of provers 5 and 6 at block 100 with epoch 10 and
decoded diffs at blocks 90 and 95. -/
theorem list_adds_dense_witness :
    listAdds emptyBlockProver
        (listBaseline Prover.Merge [exampleSnapshot 5, exampleSnapshot 6]
          [exampleDiff 90 5, exampleDiff 95 6] 90)
        (listBlockMap BlockProver.BlockNumber [exampleDiff 90 5, exampleDiff 95 6])
        (min 100 100 - 10) (max 100 100) 20 =
      some (listBaseline Prover.Merge [exampleSnapshot 5, exampleSnapshot 6]
          [exampleDiff 90 5, exampleDiff 95 6] 90 ::
        (List.range' (min 100 100 - 10 + 1) (max 100 100 - (min 100 100 - 10))).map (fun n =>
            match listBlockMap BlockProver.BlockNumber [exampleDiff 90 5, exampleDiff 95 6] n
            with
            | some p => p
            | none => emptyBlockProver n)) :=
  (list_adds_dense BlockProver.BlockNumber emptyBlockProver
    (listBaseline Prover.Merge [exampleSnapshot 5, exampleSnapshot 6]
      [exampleDiff 90 5, exampleDiff 95 6] 90)
    [exampleDiff 90 5, exampleDiff 95 6] 100 100 100 100 10 20
    (fun _ => rfl) (by decide) (by decide) (by decide) (by decide) (by decide)).2.1

/-- C21 fails at the baseline block: for provers 5 and 6 listed at block 100, epoch 10
and one decoded diff at block 90 (an event of prover 5), the diff added for block 90 is
the baseline, which also binds prover 6; it is neither the decoded diff of block 90 nor
an empty diff.  The `merge` of the unified implementation is outside the embedded files;
`Prover.Merge` stands in for it, and prover 6, which has no log, is never merged. -/
theorem list_baseline_counterexample :
    listRange 100 100 100 100 10 = (90, 100) ∧
    (listBlockMap BlockProver.BlockNumber [exampleDiff 90 5] 90).map
      (fun d => (d.BlockNumber, (d.Provers 5).isSome, (d.Provers 6).isSome)) =
      some (90, true, false) ∧
    (listAdds emptyBlockProver
        (listBaseline Prover.Merge [exampleSnapshot 5, exampleSnapshot 6] [exampleDiff 90 5] 90)
        (listBlockMap BlockProver.BlockNumber [exampleDiff 90 5]) 90 100 20).map
      (fun adds => (adds.take 2).map
        (fun d => (d.BlockNumber, (d.Provers 5).isSome, (d.Provers 6).isSome))) =
      some [(90, true, true), (91, false, false)] := by
  refine ⟨by decide, by decide, by decide⟩


/-! ## Block ranges -/

/-- C22 at `minSeen = maxSeen = 100` and `epoch = 720`: the subtraction wraps, the
query starts at `2 ^ 64 - 620`, above `minSeen` and above `ToBlock`; likewise
`latestBlockNumber - tracebackLength` in `ListAndWatchProver` for 100 and 720. -/
theorem list_range_wraps :
    listRange 100 100 100 100 720 = (2 ^ 64 - 620, 100) ∧
    ¬ ((listRange 100 100 100 100 720).1 ≤ 100) ∧
    (listRange 100 100 100 100 720).2 < (listRange 100 100 100 100 720).1 ∧
    listAndWatchProverTarget 100 720 = 2 ^ 64 - 620 ∧
    ¬ (listAndWatchProverTarget 100 720 ≤ 100) := by
  refine ⟨by decide, by decide, by decide, by decide, by decide⟩

/-! ## Panics of set -/

/-- C24 fails on the whole overflow branch: whenever the list is longer than
`int(epoch)` after the append, `contractProver.set` and `contractProject.set` panic,
`contractProver.set` leaving the list without its oldest entry and with the new diff; in
particular at epoch 1 with one stored diff, and at epoch 0 on an empty history. -/
theorem set_panics_on_overflow :
    (∀ (c : contractProver) (d : BlockProver),
      ((c.blocks ++ [d]).length : Int) > intOfUint64 c.epoch →
        (c.set d).isReturned = false ∧ (c.set d).state.blocks = c.blocks.tail ++ [d]) ∧
    (∀ (BP : Type) (Merge : BP → BP → BP) (fresh : BP) (c : contractProject BP) (d : BP),
      ((c.blocks ++ [d]).length : Int) > intOfUint64 c.epoch →
        (contractProject.set Merge fresh c d).isReturned = false) ∧
    ((contractProver.mk 1 [exampleDiff 1 1]).set (exampleDiff 2 2)).isReturned = false ∧
    ((contractProver.new 0).set (exampleDiff 1 1)).isReturned = false := by
  refine ⟨?_, ?_, by decide, by decide⟩
  · intro c d h
    rw [contractProver_set_eq, if_pos h]
    exact ⟨rfl, rfl⟩
  · intro BP Merge fresh c d h
    rw [contractProject_set_eq, if_pos h]
    rfl

/-! ## The topic filter -/

/-- C25 fails for `ProverPaused`: the topics `ListAndWatchProver` hands over, which
`watchProver` puts into its query, are `OperatorSet`, `NodeTypeUpdated` and
`ProverResumed`; a `ProverPaused(5)` log does not match the query although
`processProverLogs` decodes it (to `Paused = true`), so after the filter nothing is
emitted for it. -/
theorem prover_paused_filtered_out :
    watchProverQueryTopics listAndWatchProverTopics =
      some [.operatorSet, .nodeTypeUpdated, .proverResumed] ∧
    matchesQuery [.operatorSet, .nodeTypeUpdated, .proverResumed] (pausedLog 200 0 5) = false ∧
    recognised (pausedLog 200 0 5) = true ∧
    (processProverLogs exampleInstance [pausedLog 200 0 5]).2.map
      (fun d => (d.Provers 5).map Prover.Paused) = [some (some true)] ∧
    (processProverLogs exampleInstance
      ([pausedLog 200 0 5].filter
        (matchesQuery [.operatorSet, .nodeTypeUpdated, .proverResumed]))).2.length = 0 := by
  refine ⟨rfl, by decide, by decide, by decide, by decide⟩

/-! ## The dispatcher callback -/

/-- C23: `handleP2PData` routes by project: an envelope without state log, or with
a state log for whose `ProjectID` no dispatcher is registered, leads to no `handle` call;
otherwise the one call made is to the dispatcher registered under that `ProjectID`, with
that state log, and no other dispatcher is called. -/
theorem handleP2PData_routes (projectDispatchers : Nat → Option Nat) (data : P2PData) :
    (data.TaskStateLog = none → handleP2PData projectDispatchers data = []) ∧
    (∀ s, data.TaskStateLog = some s → projectDispatchers s.ProjectID = none →
      handleP2PData projectDispatchers data = []) ∧
    (∀ s pd, data.TaskStateLog = some s → projectDispatchers s.ProjectID = some pd →
      handleP2PData projectDispatchers data = [(pd, s)] ∧
      ∀ other, other ≠ pd → ∀ call ∈ handleP2PData projectDispatchers data, call.1 ≠ other) := by
  refine ⟨?_, ?_, ?_⟩
  · intro h
    simp [handleP2PData, h]
  · intro s hs hp
    simp [handleP2PData, hs, hp]
  · intro s pd hs hp
    have : handleP2PData projectDispatchers data = [(pd, s)] := by
      simp [handleP2PData, hs, hp]
    refine ⟨this, ?_⟩
    intro other ho call hc
    rw [this] at hc
    simp only [List.mem_singleton] at hc
    rw [hc]
    exact fun h => ho h.symm

end Sprout
